import Mathlib

/-!
Verification of the staff-scheduling core (`src/hooks/useStaffData.js`).

This file gives a shallow embedding of the data model and the pure core of
the `useStaffData` hook — the merge/override/sort/orphan-detection engine
(`getStaffByUnit`), the schedule copy engine (`copyScheduleFromWeek`), the
wholesale settings save with its safety guard (`saveGlobalSettings`), the
weekly-schedule write path (`saveWeeklySchedule`,
`updateStaffInWeeklySchedule`, `removeStaffFromWeeklySchedule`) and the
roster mutations (`addStaffToList`, `updateStaffInList`,
`deleteStaffFromList`, `updateStaffListOrder`) — and proves or refutes the
specified properties about them.

Modelling conventions:
* JS objects with optional keys become structures with `Option` fields;
  `none` is a missing/`undefined` key, `some ""` is an explicit empty string
  (the `??` / `||` distinction of the source is preserved).
* JS objects used as string-keyed maps become association lists in insertion
  order; `Array.prototype.sort` (a stable comparator sort) becomes the
  stable insertion sort `sortCmp`.
* `String.prototype.localeCompare` is modelled as lexicographic comparison
  of the character sequences (`strCmp`).
* Machine numbers only ever hold small non-negative integers (`sortOrder`,
  array indices) or the `Infinity` sentinel, so they are modelled as
  `Option Nat` with `none` standing for `Infinity`.
-/

namespace StaffPlan

/-- JS `v || ""` / `v ?? ""` on a possibly-missing string: both collapse a
missing key and an empty string to `""`. -/
def strOrEmpty (v : Option String) : String :=
  match v with
  | some s => s
  | none => ""

/-- Lexicographic strict comparison of character lists (the model of
`localeCompare` returning a negative number). -/
def charListLtB : List Char → List Char → Bool
  | _, [] => false
  | [], _ :: _ => true
  | a :: as, b :: bs => if a < b then true else if b < a then false else charListLtB as bs

theorem charListLtB_asymm : ∀ (x y : List Char), charListLtB x y = true → charListLtB y x = false := by
  intro x
  induction x with
  | nil =>
    intro y h
    cases y with
    | nil => simp [charListLtB] at h
    | cons b bs => simp [charListLtB]
  | cons a as ih =>
    intro y h
    cases y with
    | nil => simp [charListLtB] at h
    | cons b bs =>
      by_cases hab : a < b
      · have hba : ¬ b < a := lt_asymm hab
        simp [charListLtB, hab, hba]
      · by_cases hba : b < a
        · simp [charListLtB, hab, hba] at h
        · simp [charListLtB, hab, hba] at h ⊢
          exact ih bs h

theorem charListLtB_conn : ∀ (x y : List Char), charListLtB x y = false →
    charListLtB y x = false → x = y := by
  intro x
  induction x with
  | nil =>
    intro y hxy _
    cases y with
    | nil => rfl
    | cons b bs => simp [charListLtB] at hxy
  | cons a as ih =>
    intro y hxy hyx
    cases y with
    | nil => simp [charListLtB] at hyx
    | cons b bs =>
      by_cases hab : a < b
      · simp [charListLtB, hab] at hxy
      · by_cases hba : b < a
        · simp [charListLtB, hba] at hyx
        · have hEq : a = b := le_antisymm (not_lt.mp hba) (not_lt.mp hab)
          simp [charListLtB, hab, hba] at hxy hyx
          rw [hEq, ih bs hxy hyx]

theorem charListLtB_le_trans : ∀ (x y z : List Char), charListLtB y x = false →
    charListLtB z y = false → charListLtB z x = false := by
  intro x
  induction x with
  | nil =>
    intro y z _ _
    cases z with
    | nil => rfl
    | cons c cs => rfl
  | cons a as ih =>
    intro y z h1 h2
    cases z with
    | nil =>
      cases y with
      | nil => simp [charListLtB] at h1
      | cons b bs => simp [charListLtB] at h2
    | cons c cs =>
      cases y with
      | nil => simp [charListLtB] at h1
      | cons b bs =>
        have hba : ¬ b < a := by
          intro h
          simp [charListLtB, h] at h1
        have hcb : ¬ c < b := by
          intro h
          simp [charListLtB, h] at h2
        have hca : ¬ c < a := not_lt.mpr (le_trans (not_lt.mp hba) (not_lt.mp hcb))
        by_cases hac : a < c
        · simp [charListLtB, hca, hac]
        · have hab : a = b := le_antisymm (not_lt.mp hba)
            (le_trans (not_lt.mp hcb) (not_lt.mp hac))
          have hbc : b = c := le_antisymm (not_lt.mp hcb)
            (le_trans (not_lt.mp hac) (not_lt.mp hba))
          have hnab : ¬ a < b := by rw [hab]; exact lt_irrefl b
          have hnbc : ¬ b < c := by rw [hbc]; exact lt_irrefl c
          simp [charListLtB, hba, hnab] at h1
          simp [charListLtB, hcb, hnbc] at h2
          simp [charListLtB, hca, hac]
          exact ih bs cs h1 h2

theorem charListLtB_irrefl (x : List Char) : charListLtB x x = false := by
  cases h : charListLtB x x
  · rfl
  · have h2 := charListLtB_asymm x x h
    rw [h] at h2
    exact h2

/-- Model of `a.localeCompare(b)` as a three-way lexicographic comparison. -/
def strLtB (a b : String) : Bool :=
  charListLtB a.data b.data

def strCmp (a b : String) : Ordering :=
  if strLtB a b then .lt else if strLtB b a then .gt else .eq

/-- Three-way comparison of naturals (sign of JS `a - b`). -/
def natCmp (i j : Nat) : Ordering :=
  if i < j then .lt else if j < i then .gt else .eq

/-- Three-way comparison of `Option Nat` where `none` plays the role of the
JS `Infinity` sentinel (so `none` sorts after everything). Matches the JS
comparator `(a ?? Infinity) - (b ?? Infinity)` guarded by `!==`. -/
def cmpOptNat : Option Nat → Option Nat → Ordering
  | none, none => .eq
  | none, some _ => .gt
  | some _, none => .lt
  | some i, some j => natCmp i j

def boolCmp (a b : Bool) : Ordering :=
  match a, b with
  | false, true => .lt
  | true, false => .gt
  | _, _ => .eq

/-- A comparator that behaves like one induced by a total preorder:
antisymmetric under argument swap, and transitive on `≠ .gt`. -/
structure IsTotalCmp {α : Type} (cmp : α → α → Ordering) : Prop where
  symm : ∀ a b, cmp a b = (cmp b a).swap
  leTrans : ∀ a b c, cmp a b ≠ .gt → cmp b c ≠ .gt → cmp a c ≠ .gt

theorem IsTotalCmp.eq_symm {α : Type} {cmp : α → α → Ordering} (h : IsTotalCmp cmp)
    {a b : α} (hab : cmp a b = .eq) : cmp b a = .eq := by
  have := h.symm b a
  rw [hab] at this
  simpa [Ordering.swap] using this

theorem IsTotalCmp.gt_of_lt {α : Type} {cmp : α → α → Ordering} (h : IsTotalCmp cmp)
    {a b : α} (hab : cmp a b = .lt) : cmp b a = .gt := by
  have := h.symm b a
  rw [hab] at this
  simpa [Ordering.swap] using this

theorem IsTotalCmp.le_of_gt_ne {α : Type} {cmp : α → α → Ordering} (h : IsTotalCmp cmp)
    {a b : α} (hab : cmp a b = .gt) : cmp b a ≠ .gt := by
  have := h.symm a b
  rw [hab] at this
  intro hba
  rw [hba] at this
  simp [Ordering.swap] at this

theorem IsTotalCmp.lt_of_le_of_lt {α : Type} {cmp : α → α → Ordering} (h : IsTotalCmp cmp)
    {a b c : α} (h1 : cmp a b ≠ .gt) (h2 : cmp b c = .lt) : cmp a c = .lt := by
  have hle : cmp a c ≠ .gt := h.leTrans a b c h1 (by simp [h2])
  cases hac : cmp a c with
  | lt => rfl
  | gt => exact absurd hac hle
  | eq =>
    exfalso
    have hca : cmp c a = .eq := h.eq_symm hac
    have : cmp c b ≠ .gt := h.leTrans c a b (by simp [hca]) h1
    exact this (h.gt_of_lt h2)

theorem IsTotalCmp.lt_of_lt_of_le {α : Type} {cmp : α → α → Ordering} (h : IsTotalCmp cmp)
    {a b c : α} (h1 : cmp a b = .lt) (h2 : cmp b c ≠ .gt) : cmp a c = .lt := by
  have hle : cmp a c ≠ .gt := h.leTrans a b c (by simp [h1]) h2
  cases hac : cmp a c with
  | lt => rfl
  | gt => exact absurd hac hle
  | eq =>
    exfalso
    have hca : cmp c a = .eq := h.eq_symm hac
    have : cmp b a ≠ .gt := h.leTrans b c a h2 (by simp [hca])
    exact this (h.gt_of_lt h1)

theorem IsTotalCmp.eq_trans {α : Type} {cmp : α → α → Ordering} (h : IsTotalCmp cmp)
    {a b c : α} (h1 : cmp a b = .eq) (h2 : cmp b c = .eq) : cmp a c = .eq := by
  have hle : cmp a c ≠ .gt := h.leTrans a b c (by simp [h1]) (by simp [h2])
  cases hac : cmp a c with
  | eq => rfl
  | gt => exact absurd hac hle
  | lt =>
    exfalso
    have hge : cmp c a = .gt := h.gt_of_lt hac
    have : cmp c a ≠ .gt :=
      h.leTrans c b a (by simp [h.eq_symm h2]) (by simp [h.eq_symm h1])
    exact this hge

theorem Ordering.then_swap (x y : Ordering) : (x.then y).swap = x.swap.then y.swap := by
  cases x <;> cases y <;> rfl

theorem IsTotalCmp.thenCmp {α : Type} {f g : α → α → Ordering}
    (hf : IsTotalCmp f) (hg : IsTotalCmp g) :
    IsTotalCmp (fun a b => (f a b).then (g a b)) := by
  constructor
  · intro a b
    rw [hf.symm a b, hg.symm a b, Ordering.then_swap]
  · intro a b c h1 h2
    simp only at h1 h2 ⊢
    cases hab : f a b with
    | gt => rw [hab] at h1; exact absurd rfl h1
    | lt =>
      cases hbc : f b c with
      | gt => rw [hbc] at h2; exact absurd rfl h2
      | lt =>
        have : f a c = .lt := hf.lt_of_lt_of_le hab (by simp [hbc])
        simp [this, Ordering.then]
      | eq =>
        have : f a c = .lt := hf.lt_of_lt_of_le hab (by simp [hbc])
        simp [this, Ordering.then]
    | eq =>
      cases hbc : f b c with
      | gt => rw [hbc] at h2; exact absurd rfl h2
      | lt =>
        have : f a c = .lt := hf.lt_of_le_of_lt (by simp [hab]) hbc
        simp [this, Ordering.then]
      | eq =>
        have hfac : f a c = .eq := hf.eq_trans hab hbc
        rw [hab] at h1
        rw [hbc] at h2
        simp [Ordering.then] at h1 h2
        simp [hfac, Ordering.then]
        exact hg.leTrans a b c h1 h2

theorem IsTotalCmp.comap {α β : Type} {cmp : α → α → Ordering} (h : IsTotalCmp cmp)
    (fn : β → α) : IsTotalCmp (fun a b => cmp (fn a) (fn b)) := by
  constructor
  · intro a b
    exact h.symm (fn a) (fn b)
  · intro a b c h1 h2
    exact h.leTrans (fn a) (fn b) (fn c) h1 h2

theorem natCmp_isTotal : IsTotalCmp natCmp := by
  constructor
  · intro a b
    unfold natCmp
    rcases lt_trichotomy a b with h | h | h
    · simp [h, lt_asymm h, Ordering.swap]
    · simp [h, lt_irrefl, Ordering.swap]
    · simp [h, lt_asymm h, Ordering.swap]
  · intro a b c h1 h2
    unfold natCmp at h1 h2 ⊢
    split_ifs at h1 h2 ⊢ <;> simp_all <;> omega

theorem cmpOptNat_isTotal : IsTotalCmp cmpOptNat := by
  constructor
  · intro a b
    cases a <;> cases b <;> simp [cmpOptNat, Ordering.swap]
    exact natCmp_isTotal.symm _ _
  · intro a b c h1 h2
    cases a <;> cases b <;> cases c <;> simp_all [cmpOptNat]
    exact natCmp_isTotal.leTrans _ _ _ h1 h2

theorem strLtB_not_gt {a b : String} (h : strCmp a b ≠ .gt) : strLtB b a = false := by
  unfold strCmp at h
  by_cases hab : strLtB a b
  · exact charListLtB_asymm _ _ hab
  · by_cases hba : strLtB b a
    · simp [hab, hba] at h
    · simpa using hba

theorem strCmp_not_gt_of {a b : String} (h : strLtB b a = false) : strCmp a b ≠ .gt := by
  unfold strCmp
  by_cases hab : strLtB a b <;> simp [hab, h]

theorem strCmp_isTotal : IsTotalCmp strCmp := by
  constructor
  · intro a b
    unfold strCmp strLtB
    by_cases hab : charListLtB a.data b.data = true
    · simp [hab, charListLtB_asymm _ _ hab, Ordering.swap]
    · by_cases hba : charListLtB b.data a.data = true
      · simp [hab, hba, Ordering.swap]
      · simp [hab, hba, Ordering.swap]
  · intro a b c h1 h2
    exact strCmp_not_gt_of (charListLtB_le_trans _ _ _ (strLtB_not_gt h1) (strLtB_not_gt h2))

theorem strCmp_eq_iff {a b : String} : strCmp a b = .eq ↔ a = b := by
  constructor
  · intro h
    unfold strCmp at h
    by_cases hab : strLtB a b
    · simp [hab] at h
    · by_cases hba : strLtB b a
      · simp [hab, hba] at h
      · have hd : a.data = b.data := by
          refine charListLtB_conn a.data b.data ?_ ?_
          · simpa [strLtB] using hab
          · simpa [strLtB] using hba
        cases a
        cases b
        simp at hd
        rw [hd]
  · intro h
    subst h
    simp [strCmp, strLtB, charListLtB_irrefl]

theorem boolCmp_isTotal : IsTotalCmp boolCmp := by
  constructor
  · intro a b
    cases a <;> cases b <;> rfl
  · intro a b c h1 h2
    cases a <;> cases b <;> cases c <;> simp_all [boolCmp]

/-!  Stable comparator sort: the model of `Array.prototype.sort(cmp)`.
Elements are inserted left to right into an already-sorted prefix; a new
element goes after every element that compares `≤ 0` against it, which makes
the sort stable. -/

def insertCmp {α : Type} (cmp : α → α → Ordering) (x : α) : List α → List α
  | [] => [x]
  | y :: ys => if cmp y x ≠ .gt then y :: insertCmp cmp x ys else x :: y :: ys

def sortCmp {α : Type} (cmp : α → α → Ordering) (l : List α) : List α :=
  l.foldl (fun acc x => insertCmp cmp x acc) []

theorem insertCmp_perm {α : Type} (cmp : α → α → Ordering) (x : α) (l : List α) :
    List.Perm (insertCmp cmp x l) (x :: l) := by
  induction l with
  | nil => exact List.Perm.refl _
  | cons y ys ih =>
    unfold insertCmp
    by_cases h : cmp y x ≠ .gt
    · rw [if_pos h]
      exact List.Perm.trans (ih.cons y) (List.Perm.swap x y ys)
    · rw [if_neg h]

theorem mem_insertCmp {α : Type} {cmp : α → α → Ordering} {x z : α} {l : List α}
    (h : z ∈ insertCmp cmp x l) : z = x ∨ z ∈ l := by
  have := (insertCmp_perm cmp x l).mem_iff.mp h
  simpa using this

theorem foldl_insertCmp_perm {α : Type} (cmp : α → α → Ordering) :
    ∀ (todo acc : List α),
      List.Perm (todo.foldl (fun acc x => insertCmp cmp x acc) acc) (todo ++ acc) := by
  intro todo
  induction todo with
  | nil => intro acc; exact List.Perm.refl _
  | cons x rest ih =>
    intro acc
    have h1 := ih (insertCmp cmp x acc)
    have h2 : List.Perm (rest ++ insertCmp cmp x acc) (rest ++ (x :: acc)) :=
      List.Perm.append_left rest (insertCmp_perm cmp x acc)
    have h3 : List.Perm (rest ++ (x :: acc)) (x :: (rest ++ acc)) := List.perm_middle
    simpa using (h1.trans h2).trans h3

theorem sortCmp_perm {α : Type} (cmp : α → α → Ordering) (l : List α) :
    List.Perm (sortCmp cmp l) l := by
  have := foldl_insertCmp_perm cmp l []
  simpa [sortCmp] using this

theorem mem_sortCmp {α : Type} {cmp : α → α → Ordering} {l : List α} {z : α}
    (h : z ∈ sortCmp cmp l) : z ∈ l :=
  (sortCmp_perm cmp l).mem_iff.mp h

/-- Inserting an element into a sorted list keeps it sorted, where sortedness
is `Pairwise (cmp · · ≠ .gt)`; the comparator only needs to be consistent on
elements of a carrier predicate `S`. -/
theorem insertCmp_pairwise_of {α : Type} {cmp : α → α → Ordering} {S : α → Prop}
    (hsymm : ∀ a b, S a → S b → cmp a b = .gt → cmp b a ≠ .gt)
    (htrans : ∀ a b c, S a → S b → S c → cmp a b ≠ .gt → cmp b c ≠ .gt → cmp a c ≠ .gt) :
    ∀ {l : List α} {x : α}, S x → (∀ y ∈ l, S y) →
      l.Pairwise (fun a b => cmp a b ≠ .gt) →
      (insertCmp cmp x l).Pairwise (fun a b => cmp a b ≠ .gt) := by
  intro l
  induction l with
  | nil =>
    intro x _ _ _
    simp [insertCmp]
  | cons y ys ih =>
    intro x hx hl hp
    have hy : S y := hl y (by simp)
    have hys : ∀ z ∈ ys, S z := fun z hz => hl z (by simp [hz])
    have hyz := (List.pairwise_cons.mp hp).1
    have hpys := (List.pairwise_cons.mp hp).2
    unfold insertCmp
    by_cases h : cmp y x ≠ .gt
    · rw [if_pos h]
      refine List.pairwise_cons.mpr ⟨?_, ih hx hys hpys⟩
      intro z hz
      rcases mem_insertCmp hz with heq | hz'
      · rw [heq]; exact h
      · exact hyz z hz'
    · rw [if_neg h]
      have hgt : cmp y x = .gt := by
        by_cases h' : cmp y x = .gt
        · exact h'
        · exact absurd h' h
      refine List.pairwise_cons.mpr ⟨?_, hp⟩
      intro z hz
      rcases List.mem_cons.mp hz with heq | hz'
      · rw [heq]; exact hsymm y x hy hx hgt
      · exact htrans x y z hx hy (hys z hz') (hsymm y x hy hx hgt) (hyz z hz')

/-- Sorting with a comparator that is consistent on the list's elements
produces a `Pairwise`-sorted list. -/
theorem sortCmp_pairwise_of {α : Type} {cmp : α → α → Ordering} {l : List α}
    (hsymm : ∀ a b, a ∈ l → b ∈ l → cmp a b = .gt → cmp b a ≠ .gt)
    (htrans : ∀ a b c, a ∈ l → b ∈ l → c ∈ l →
      cmp a b ≠ .gt → cmp b c ≠ .gt → cmp a c ≠ .gt) :
    (sortCmp cmp l).Pairwise (fun a b => cmp a b ≠ .gt) := by
  suffices h : ∀ (todo acc : List α), (∀ y ∈ todo, y ∈ l) → (∀ y ∈ acc, y ∈ l) →
      acc.Pairwise (fun a b => cmp a b ≠ .gt) →
      (todo.foldl (fun acc x => insertCmp cmp x acc) acc).Pairwise
        (fun a b => cmp a b ≠ .gt) by
    exact h l [] (fun y hy => hy) (by simp) (by simp)
  intro todo
  induction todo with
  | nil => intro acc _ _ hp; exact hp
  | cons x rest ih =>
    intro acc htodo hacc hp
    have hx : x ∈ l := htodo x (by simp)
    have hrest : ∀ y ∈ rest, y ∈ l := fun y hy => htodo y (by simp [hy])
    have hacc' : ∀ y ∈ insertCmp cmp x acc, y ∈ l := by
      intro y hy
      rcases mem_insertCmp hy with rfl | hy'
      · exact hx
      · exact hacc y hy'
    exact ih (insertCmp cmp x acc) hrest hacc'
      (insertCmp_pairwise_of hsymm htrans hx hacc hp)

/-- Variant of `insertCmp_pairwise_of` for lists without duplicates: the
comparator consistency is only needed on pairs of distinct elements (JS
comparators in the source are inconsistent on some equal pairs, e.g. the
empty-string unit key compared with itself). -/
theorem insertCmp_pairwise_ne {α : Type} {cmp : α → α → Ordering} {S : α → Prop}
    (hsymm : ∀ a b, S a → S b → a ≠ b → cmp a b = .gt → cmp b a ≠ .gt)
    (htrans : ∀ a b c, S a → S b → S c → cmp a b ≠ .gt → cmp b c ≠ .gt → cmp a c ≠ .gt) :
    ∀ {l : List α} {x : α}, S x → (∀ y ∈ l, S y) → x ∉ l →
      l.Pairwise (fun a b => a ≠ b ∧ cmp a b ≠ .gt) →
      (insertCmp cmp x l).Pairwise (fun a b => a ≠ b ∧ cmp a b ≠ .gt) := by
  intro l
  induction l with
  | nil =>
    intro x _ _ _ _
    simp [insertCmp]
  | cons y ys ih =>
    intro x hx hl hxl hp
    have hy : S y := hl y (by simp)
    have hys : ∀ z ∈ ys, S z := fun z hz => hl z (by simp [hz])
    have hxy : x ≠ y := fun hxy => hxl (by simp [hxy])
    have hxys : x ∉ ys := fun hmem => hxl (by simp [hmem])
    have hyz := (List.pairwise_cons.mp hp).1
    have hpys := (List.pairwise_cons.mp hp).2
    unfold insertCmp
    by_cases h : cmp y x ≠ .gt
    · rw [if_pos h]
      refine List.pairwise_cons.mpr ⟨?_, ih hx hys hxys hpys⟩
      intro z hz
      rcases mem_insertCmp hz with heq | hz'
      · rw [heq]
        exact ⟨hxy.symm, h⟩
      · exact hyz z hz'
    · rw [if_neg h]
      have hgt : cmp y x = .gt := by
        by_cases h' : cmp y x = .gt
        · exact h'
        · exact absurd h' h
      refine List.pairwise_cons.mpr ⟨?_, hp⟩
      intro z hz
      rcases List.mem_cons.mp hz with heq | hz'
      · rw [heq]
        exact ⟨hxy, hsymm y x hy hx hxy.symm hgt⟩
      · refine ⟨fun he => hxys (he ▸ hz'), ?_⟩
        exact htrans x y z hx hy (hys z hz')
          (hsymm y x hy hx hxy.symm hgt) (hyz z hz').2

/-- Sorting a duplicate-free list with a comparator that is consistent on
distinct elements yields a strictly `Pairwise`-sorted list. -/
theorem sortCmp_pairwise_nodup {α : Type} {cmp : α → α → Ordering} {l : List α}
    (hnd : l.Nodup)
    (hsymm : ∀ a b, a ∈ l → b ∈ l → a ≠ b → cmp a b = .gt → cmp b a ≠ .gt)
    (htrans : ∀ a b c, a ∈ l → b ∈ l → c ∈ l →
      cmp a b ≠ .gt → cmp b c ≠ .gt → cmp a c ≠ .gt) :
    (sortCmp cmp l).Pairwise (fun a b => a ≠ b ∧ cmp a b ≠ .gt) := by
  suffices h : ∀ (todo acc : List α), (∀ y ∈ todo, y ∈ l) → (∀ y ∈ acc, y ∈ l) →
      (todo ++ acc).Nodup →
      acc.Pairwise (fun a b => a ≠ b ∧ cmp a b ≠ .gt) →
      (todo.foldl (fun acc x => insertCmp cmp x acc) acc).Pairwise
        (fun a b => a ≠ b ∧ cmp a b ≠ .gt) by
    exact h l [] (fun y hy => hy) (by simp) (by simpa using hnd) (by simp)
  intro todo
  induction todo with
  | nil => intro acc _ _ _ hp; exact hp
  | cons x rest ih =>
    intro acc htodo hacc hnd' hp
    have hx : x ∈ l := htodo x (by simp)
    have hrest : ∀ y ∈ rest, y ∈ l := fun y hy => htodo y (by simp [hy])
    obtain ⟨⟨hx1, hx2⟩, hnd2⟩ : (x ∉ rest ∧ x ∉ acc) ∧ (rest ++ acc).Nodup := by
      simpa using hnd'
    have hacc' : ∀ y ∈ insertCmp cmp x acc, y ∈ l := by
      intro y hy
      rcases mem_insertCmp hy with heq | hy'
      · rw [heq]; exact hx
      · exact hacc y hy'
    have hnd'' : (rest ++ insertCmp cmp x acc).Nodup := by
      have hcons : (x :: (rest ++ acc)).Nodup := by
        refine List.nodup_cons.mpr ⟨?_, hnd2⟩
        simp [hx1, hx2]
      have hperm : List.Perm (x :: (rest ++ acc)) (rest ++ insertCmp cmp x acc) := by
        refine List.Perm.trans List.perm_middle.symm ?_
        exact List.Perm.append_left rest (insertCmp_perm cmp x acc).symm
      exact hperm.nodup hcons
    exact ih (insertCmp cmp x acc) hrest hacc' hnd''
      (insertCmp_pairwise_ne hsymm htrans hx hacc hx2 hp)

theorem insertCmp_all_le {α : Type} {cmp : α → α → Ordering} {x : α} :
    ∀ {l : List α}, (∀ y ∈ l, cmp y x ≠ .gt) → insertCmp cmp x l = l ++ [x] := by
  intro l
  induction l with
  | nil => intro _; rfl
  | cons y ys ih =>
    intro h
    unfold insertCmp
    rw [if_pos (h y (by simp))]
    rw [ih (fun z hz => h z (by simp [hz]))]
    simp

/-- Sorting an already-sorted list is the identity (stability of `sortCmp`). -/
theorem sortCmp_of_pairwise {α : Type} {cmp : α → α → Ordering} {l : List α}
    (h : l.Pairwise (fun a b => cmp a b ≠ .gt)) : sortCmp cmp l = l := by
  suffices haux : ∀ (todo acc : List α),
      (acc ++ todo).Pairwise (fun a b => cmp a b ≠ .gt) →
      todo.foldl (fun acc x => insertCmp cmp x acc) acc = acc ++ todo by
    simpa using haux l [] (by simpa using h)
  intro todo
  induction todo with
  | nil => intro acc _; simp
  | cons x rest ih =>
    intro acc hp
    have hle : ∀ y ∈ acc, cmp y x ≠ .gt := by
      intro y hy
      exact (List.pairwise_append.mp hp).2.2 y hy x (by simp)
    have hstep : insertCmp cmp x acc = acc ++ [x] := insertCmp_all_le hle
    have hp' : ((acc ++ [x]) ++ rest).Pairwise (fun a b => cmp a b ≠ .gt) := by
      rw [List.append_assoc]
      simpa using hp
    calc (x :: rest).foldl (fun acc x => insertCmp cmp x acc) acc
        = rest.foldl (fun acc x => insertCmp cmp x acc) (acc ++ [x]) := by
          simp [List.foldl_cons, hstep]
      _ = (acc ++ [x]) ++ rest := ih (acc ++ [x]) hp'
      _ = acc ++ (x :: rest) := by simp

theorem natCmp_ne_gt {i j : Nat} : natCmp i j ≠ .gt ↔ i ≤ j := by
  unfold natCmp
  split_ifs <;> simp <;> omega

theorem natCmp_eq_gt {i j : Nat} : natCmp i j = .gt ↔ j < i := by
  unfold natCmp
  split_ifs <;> simp <;> omega

theorem natCmp_eq_lt {i j : Nat} : natCmp i j = .lt ↔ i < j := by
  unfold natCmp
  split_ifs <;> simp <;> omega

theorem natCmp_eq_eq {i j : Nat} : natCmp i j = .eq ↔ i = j := by
  unfold natCmp
  split_ifs <;> simp <;> omega

/-!  Data model (§3 of the spec, mirroring the shapes used by
`useStaffData.js`).  Optional JS keys are `Option` fields. -/

structure ShiftType where
  code : String
  name : String
  color : String
deriving Repr, DecidableEq

structure StaffMember where
  id : String
  name : String
  employeeNumber : Option String := none
  defaultUnit : Option String := none
  defaultGroup : Option String := none
  defaultJobTitle : Option String := none
  isActive : Bool := true
  sortOrder : Option Nat := none
deriving Repr, DecidableEq

structure WeeklyRecord where
  staffId : String
  name : Option String := none
  unit : Option String := none
  group : Option String := none
  jobTitle : Option String := none
  shifts : Option (List (String × String)) := none
deriving Repr, DecidableEq

structure GlobalSettings where
  units : List String := []
  groups : List String := []
  jobTitles : List String := []
  shiftTypes : List ShiftType := []
  timeSlots : List (String × String) := []
  staffList : List StaffMember := []
deriving Repr, DecidableEq

structure WeeklySchedule where
  weekStartDate : String := ""
  staff : List WeeklyRecord := []
deriving Repr, DecidableEq

/-- The derived per-week, per-staff view object built by `getStaffByUnit`. -/
structure StaffEntry where
  staffId : String
  name : String
  unit : String
  displayUnit : String
  isOrphanedUnit : Bool
  group : String
  displayGroup : String
  isOrphanedGroup : Bool
  jobTitle : String
  displayJobTitle : String
  isOrphanedJobTitle : Bool
  shifts : List (String × String)
  sortOrder : Option Nat
  employeeNumber : String
deriving Repr, DecidableEq

/-!  `createOrderMap`: the JS reduce `map[item] = index`.  A later duplicate
assignment overwrites an earlier one, so the effective binding is the index
of the last occurrence. -/

def orderMapGo (x : String) : List String → Nat → Option Nat → Option Nat
  | [], _, acc => acc
  | item :: rest, n, acc => orderMapGo x rest (n + 1) (if item = x then some n else acc)

def createOrderMap (items : List String) (x : String) : Option Nat :=
  orderMapGo x items 0 none

theorem orderMapGo_not_mem {x : String} :
    ∀ {l : List String} {n : Nat} {acc : Option Nat}, x ∉ l → orderMapGo x l n acc = acc := by
  intro l
  induction l with
  | nil => intro n acc _; rfl
  | cons item rest ih =>
    intro n acc hx
    have h1 : item ≠ x := fun h => hx (by simp [h])
    have h2 : x ∉ rest := fun h => hx (by simp [h])
    unfold orderMapGo
    rw [if_neg h1, ih h2]

theorem orderMapGo_mem {x : String} :
    ∀ {l : List String} {n : Nat} {acc : Option Nat}, x ∈ l → l.Nodup →
      orderMapGo x l n acc = some (n + l.indexOf x) := by
  intro l
  induction l with
  | nil => intro n acc hx _; simp at hx
  | cons item rest ih =>
    intro n acc hx hnd
    by_cases h : item = x
    · have hxrest : x ∉ rest := by
        rw [← h]
        exact (List.nodup_cons.mp hnd).1
      unfold orderMapGo
      rw [if_pos h, orderMapGo_not_mem hxrest, h, List.indexOf_cons_self]
      simp
    · have hxrest : x ∈ rest := by
        rcases List.mem_cons.mp hx with heq | hm
        · exact absurd heq.symm h
        · exact hm
      unfold orderMapGo
      rw [if_neg h, ih hxrest (List.nodup_cons.mp hnd).2]
      have hshift : (item :: rest).indexOf x = rest.indexOf x + 1 := by
        simp [List.indexOf_cons, beq_iff_eq, h]
      rw [hshift]
      congr 1
      omega

/-- On a duplicate-free category list, the JS order map of a member is its
(unique) index. -/
theorem createOrderMap_nodup {items : List String} {x : String}
    (hx : x ∈ items) (hnd : items.Nodup) :
    createOrderMap items x = some (items.indexOf x) := by
  unfold createOrderMap
  rw [orderMapGo_mem hx hnd]
  simp

/-!  The merge & view engine `getStaffByUnit` (§4.3), translated block by
block from the source.  The loading-state guards are outside the pure core;
the engine takes the loaded settings and the current week's records. -/

/-- The `staffId → weekly record` index built by the JS reduce; a later
record with the same `staffId` overwrites an earlier one. -/
def weeklyLookup (staff : List WeeklyRecord) (id : String) : Option WeeklyRecord :=
  staff.foldl (fun acc r => if r.staffId = id then some r else acc) none

/-- `!!weeklyValue && !validSet.has(weeklyValue)`: truthiness rules out a
missing key and the empty string. -/
def isOrphanedVal (valid : List String) (v : Option String) : Bool :=
  match v with
  | some s => if s = "" then false else decide (s ∉ valid)
  | none => false

/-- One element of `combinedStaffList`: merges the roster member with the
week's override record.  `sortOrder` keeps the `Option Nat` encoding, where
`none` is the JS `?? Infinity` fallback. -/
def mkEntry (gs : GlobalSettings) (weekly : List WeeklyRecord) (m : StaffMember) : StaffEntry :=
  let weeklyData := weeklyLookup weekly m.id
  let weeklyUnit := weeklyData.bind (·.unit)
  let effectiveUnit := weeklyUnit.getD (strOrEmpty m.defaultUnit)
  let orphUnit := isOrphanedVal gs.units weeklyUnit
  let weeklyGroup := weeklyData.bind (·.group)
  let effectiveGroup := weeklyGroup.getD (strOrEmpty m.defaultGroup)
  let orphGroup := isOrphanedVal gs.groups weeklyGroup
  let weeklyJobTitle := weeklyData.bind (·.jobTitle)
  let effectiveJobTitle := weeklyJobTitle.getD (strOrEmpty m.defaultJobTitle)
  let orphJobTitle := isOrphanedVal gs.jobTitles weeklyJobTitle
  { staffId := m.id
    name := (weeklyData.bind (·.name)).getD m.name
    unit := effectiveUnit
    displayUnit := if orphUnit then effectiveUnit ++ " (törölt)" else effectiveUnit
    isOrphanedUnit := orphUnit
    group := effectiveGroup
    displayGroup := if orphGroup then effectiveGroup ++ " (törölt)" else effectiveGroup
    isOrphanedGroup := orphGroup
    jobTitle := effectiveJobTitle
    displayJobTitle := if orphJobTitle then effectiveJobTitle ++ " (törölt)" else effectiveJobTitle
    isOrphanedJobTitle := orphJobTitle
    shifts := (weeklyData.bind (·.shifts)).getD []
    sortOrder := m.sortOrder
    employeeNumber := strOrEmpty m.employeeNumber }

def activeStaff (gs : GlobalSettings) : List StaffMember :=
  gs.staffList.filter (·.isActive)

def combinedStaffList (gs : GlobalSettings) (weekly : List WeeklyRecord) : List StaffEntry :=
  (activeStaff gs).map (mkEntry gs weekly)

/-- One step of the grouping reduce: push the entry onto its unit bucket,
creating the bucket at the end on first sight (JS object insertion order). -/
def groupInsert (acc : List (String × List StaffEntry)) (k : String) (e : StaffEntry) :
    List (String × List StaffEntry) :=
  match acc with
  | [] => [(k, [e])]
  | (k1, es) :: rest =>
    if k1 = k then (k1, es ++ [e]) :: rest else (k1, es) :: groupInsert rest k e

/-- Group entries by effective unit; the key is `staff.unit || ""`, which on
strings is just `staff.unit`. -/
def groupedByUnit (gs : GlobalSettings) (weekly : List WeeklyRecord) :
    List (String × List StaffEntry) :=
  (combinedStaffList gs weekly).foldl (fun acc e => groupInsert acc e.unit e) []

/-- The sort index of a unit key: `Infinity` (`none`) for the empty key and
for keys not in the category set, else the order-map index. -/
def unitIdx (units : List String) (a : String) : Option Nat :=
  if a = "" then none else if a ∈ units then createOrderMap units a else none

/-- The unit-key comparator of `getStaffByUnit` step 1. -/
def unitKeyCmp (units : List String) (a b : String) : Ordering :=
  if a = "" then .gt
  else if b = "" then .lt
  else
    match unitIdx units a, unitIdx units b with
    | none, some _ => .gt
    | some _, none => .lt
    | none, none => strCmp a b
    | some i, some j => natCmp i j

def sortedUnitKeys (gs : GlobalSettings) (weekly : List WeeklyRecord) : List String :=
  sortCmp (unitKeyCmp gs.units) ((groupedByUnit gs weekly).map (·.1))

/-- `!isOrphaned ? (orderMap[v || ""] ?? Infinity) : Infinity` (`v || ""` is
the identity on the effective string value). -/
def stageIdx (cats : List String) (orph : Bool) (v : String) : Option Nat :=
  if orph then none else createOrderMap cats v

/-- One category stage of the in-bucket comparator: compare by index when the
indices differ; when both values are flagged orphaned compare alphabetically;
otherwise fall through to the next stage. -/
def stageCmp (orphA orphB : Bool) (ia ib : Option Nat) (va vb : String) : Ordering :=
  if ia ≠ ib then cmpOptNat ia ib
  else if orphA && orphB then strCmp va vb
  else .eq

/-- The in-bucket comparator of `getStaffByUnit` step 2: group, then job
title, then global `sortOrder`, then name. -/
def staffSortCmp (gs : GlobalSettings) (a b : StaffEntry) : Ordering :=
  (stageCmp a.isOrphanedGroup b.isOrphanedGroup
      (stageIdx gs.groups a.isOrphanedGroup a.group)
      (stageIdx gs.groups b.isOrphanedGroup b.group) a.group b.group).then
    ((stageCmp a.isOrphanedJobTitle b.isOrphanedJobTitle
        (stageIdx gs.jobTitles a.isOrphanedJobTitle a.jobTitle)
        (stageIdx gs.jobTitles b.isOrphanedJobTitle b.jobTitle) a.jobTitle b.jobTitle).then
      ((cmpOptNat a.sortOrder b.sortOrder).then (strCmp a.name b.name)))

def bucketFor (grouped : List (String × List StaffEntry)) (k : String) : List StaffEntry :=
  ((grouped.find? (fun p => p.1 = k)).map (·.2)).getD []

/-- The merge & view engine: the output object is modelled as an association
list whose key order is the object's insertion order. -/
def getStaffByUnit (gs : GlobalSettings) (weekly : List WeeklyRecord) :
    List (String × List StaffEntry) :=
  if (activeStaff gs).isEmpty then []
  else
    (sortedUnitKeys gs weekly).map
      (fun k => (k, sortCmp (staffSortCmp gs) (bucketFor (groupedByUnit gs weekly) k)))

/-!  Claim-side formalizations for the merge engine's per-entry fields. -/

/-- The display marker for an orphaned value; the source renders it as the
Hungarian `" (törölt)"`, which the spec writes language-neutrally as
`" (deleted)"`. -/
def deletedSuffix : String := " (törölt)"

/-- The value the week's override record supplies for one field of one staff
member (`none` when there is no record or the record does not set the field). -/
def overrideVal (weekly : List WeeklyRecord) (id : String)
    (field : WeeklyRecord → Option String) : Option String :=
  (weeklyLookup weekly id).bind field

/-- C1 as stated: a field is orphaned exactly when the override supplies a
value (any value, the empty string included) absent from the category set. -/
def claimOrphanAsStated (cats : List String) (v : Option String) : Bool :=
  match v with
  | some s => decide (s ∉ cats)
  | none => false

/-- C1 amended: the supplied override value must also be non-empty (JS
truthiness) for the field to count as orphaned. -/
def claimOrphanAmended (cats : List String) (v : Option String) : Bool :=
  match v with
  | some s => if s = "" then false else decide (s ∉ cats)
  | none => false

/-- The display strings demanded by C1: `"<value> (deleted)"` when the field
is orphaned, the raw effective value otherwise. -/
def orphanDisplayOk (e : StaffEntry) : Prop :=
  e.displayUnit = (if e.isOrphanedUnit then e.unit ++ deletedSuffix else e.unit)
  ∧ e.displayGroup = (if e.isOrphanedGroup then e.group ++ deletedSuffix else e.group)
  ∧ e.displayJobTitle = (if e.isOrphanedJobTitle then e.jobTitle ++ deletedSuffix else e.jobTitle)

/-- Claim C1 exactly as stated, as a predicate on one input state. -/
@[reducible] def c1AsStated (gs : GlobalSettings) (weekly : List WeeklyRecord) : Prop :=
  ∀ m ∈ activeStaff gs,
    (mkEntry gs weekly m).isOrphanedUnit
        = claimOrphanAsStated gs.units (overrideVal weekly m.id (fun r => r.unit))
    ∧ (mkEntry gs weekly m).isOrphanedGroup
        = claimOrphanAsStated gs.groups (overrideVal weekly m.id (fun r => r.group))
    ∧ (mkEntry gs weekly m).isOrphanedJobTitle
        = claimOrphanAsStated gs.jobTitles (overrideVal weekly m.id (fun r => r.jobTitle))
    ∧ orphanDisplayOk (mkEntry gs weekly m)

/-- C4's effective category value: the override's value whenever the record
exists and the key is present (an explicit empty string included), the
roster default otherwise. -/
def claimEffectiveVal (ov : Option String) (dflt : Option String) : String :=
  match ov with
  | some v => v
  | none => strOrEmpty dflt

/-- C4's effective name: the override's name when supplied, else the roster
name. -/
def claimEffectiveName (ov : Option String) (rosterName : String) : String :=
  match ov with
  | some v => v
  | none => rosterName

/-- C4's effective shifts: the override record's shifts map if present, else
the empty map. -/
def claimShifts (rec : Option WeeklyRecord) : List (String × String) :=
  match rec with
  | some r =>
    match r.shifts with
    | some s => s
    | none => []
  | none => []

/-!  Shared sample inputs for witnesses and counterexamples. -/

def mAlice : StaffMember :=
  { id := "s1", name := "Alice", defaultUnit := some "I", defaultGroup := some "G",
    defaultJobTitle := some "J", sortOrder := some 0 }

def gsBase : GlobalSettings :=
  { units := ["I", "II"], groups := ["G"], jobTitles := ["J"], staffList := [mAlice] }

/-- A weekly override that explicitly clears the unit to the empty string. -/
def recsEmptyUnit : List WeeklyRecord := [{ staffId := "s1", unit := some "" }]

/-- C1, corrected: for every active member the orphan flag of each category
field equals the amended predicate — an override exists, supplies a
NON-EMPTY value for the field, and that value is not in the category set —
a roster default never sets the flag, and the display string appends the
deleted marker exactly when the flag is set. -/
theorem c1_orphan_flags (gs : GlobalSettings) (weekly : List WeeklyRecord)
    (m : StaffMember) (hm : m ∈ activeStaff gs) :
    (mkEntry gs weekly m).isOrphanedUnit
        = claimOrphanAmended gs.units (overrideVal weekly m.id (fun r => r.unit))
    ∧ (mkEntry gs weekly m).isOrphanedGroup
        = claimOrphanAmended gs.groups (overrideVal weekly m.id (fun r => r.group))
    ∧ (mkEntry gs weekly m).isOrphanedJobTitle
        = claimOrphanAmended gs.jobTitles (overrideVal weekly m.id (fun r => r.jobTitle))
    ∧ (overrideVal weekly m.id (fun r => r.unit) = none →
        (mkEntry gs weekly m).isOrphanedUnit = false)
    ∧ orphanDisplayOk (mkEntry gs weekly m) := by
  refine ⟨rfl, rfl, rfl, ?_, rfl, rfl, rfl⟩
  intro h
  show claimOrphanAmended gs.units (overrideVal weekly m.id (fun r => r.unit)) = false
  rw [h]
  rfl

/-- Closed instance of `c1_orphan_flags` at a concrete input. -/
theorem c1_orphan_flags_witness :
    (mkEntry gsBase recsEmptyUnit mAlice).isOrphanedUnit
      = claimOrphanAmended gsBase.units (overrideVal recsEmptyUnit mAlice.id (fun r => r.unit)) :=
  (c1_orphan_flags gsBase recsEmptyUnit mAlice (by decide)).1

/-- C1 as literally stated is false: an override that sets the unit to the
explicit empty string supplies a value that is absent from the unit set, yet
the engine (JS truthiness `!!weeklyUnit`) does not flag the field orphaned. -/
theorem c1_counterexample : ¬ c1AsStated gsBase recsEmptyUnit := by
  unfold c1AsStated orphanDisplayOk
  decide

/-- C4, confirmed: each effective category field is the override's value
whenever the override record exists and sets that field (an explicit empty
string is used as the effective value), and the roster default otherwise;
the name prefers the override's name when supplied; the shifts are the
override's map when present and empty otherwise. -/
theorem c4_effective_values (gs : GlobalSettings) (weekly : List WeeklyRecord)
    (m : StaffMember) (hm : m ∈ activeStaff gs) :
    (mkEntry gs weekly m).unit
        = claimEffectiveVal (overrideVal weekly m.id (fun r => r.unit)) m.defaultUnit
    ∧ (mkEntry gs weekly m).group
        = claimEffectiveVal (overrideVal weekly m.id (fun r => r.group)) m.defaultGroup
    ∧ (mkEntry gs weekly m).jobTitle
        = claimEffectiveVal (overrideVal weekly m.id (fun r => r.jobTitle)) m.defaultJobTitle
    ∧ (mkEntry gs weekly m).name
        = claimEffectiveName (overrideVal weekly m.id (fun r => r.name)) m.name
    ∧ (mkEntry gs weekly m).shifts = claimShifts (weeklyLookup weekly m.id) := by
  refine ⟨?_, ?_, ?_, ?_, ?_⟩
  · show (overrideVal weekly m.id (fun r => r.unit)).getD (strOrEmpty m.defaultUnit)
        = claimEffectiveVal (overrideVal weekly m.id (fun r => r.unit)) m.defaultUnit
    cases overrideVal weekly m.id (fun r => r.unit) <;> rfl
  · show (overrideVal weekly m.id (fun r => r.group)).getD (strOrEmpty m.defaultGroup)
        = claimEffectiveVal (overrideVal weekly m.id (fun r => r.group)) m.defaultGroup
    cases overrideVal weekly m.id (fun r => r.group) <;> rfl
  · show (overrideVal weekly m.id (fun r => r.jobTitle)).getD (strOrEmpty m.defaultJobTitle)
        = claimEffectiveVal (overrideVal weekly m.id (fun r => r.jobTitle)) m.defaultJobTitle
    cases overrideVal weekly m.id (fun r => r.jobTitle) <;> rfl
  · show (overrideVal weekly m.id (fun r => r.name)).getD m.name
        = claimEffectiveName (overrideVal weekly m.id (fun r => r.name)) m.name
    cases overrideVal weekly m.id (fun r => r.name) <;> rfl
  · show ((weeklyLookup weekly m.id).bind (fun r => r.shifts)).getD []
        = claimShifts (weeklyLookup weekly m.id)
    cases h : weeklyLookup weekly m.id with
    | none => rfl
    | some r =>
      cases hr : r.shifts with
      | none => simp [claimShifts, hr]
      | some s => simp [claimShifts, hr]

/-- Closed instance of `c4_effective_values` at a concrete input: the
explicit empty-string override is used as the effective unit. -/
theorem c4_effective_values_witness :
    (mkEntry gsBase recsEmptyUnit mAlice).unit
      = claimEffectiveVal (overrideVal recsEmptyUnit mAlice.id (fun r => r.unit)) mAlice.defaultUnit :=
  (c4_effective_values gsBase recsEmptyUnit mAlice (by decide)).1

/-!  Membership plumbing through grouping and sorting, used by C2, C3 and C8. -/

theorem groupInsert_forall {P : StaffEntry → Prop} :
    ∀ {acc : List (String × List StaffEntry)} {k : String} {e : StaffEntry},
      (∀ p ∈ acc, ∀ x ∈ p.2, P x) → P e →
      ∀ p ∈ groupInsert acc k e, ∀ x ∈ p.2, P x := by
  intro acc
  induction acc with
  | nil =>
    intro k e _ he p hp x hx
    simp [groupInsert] at hp
    rw [hp] at hx
    simp at hx
    rw [hx]
    exact he
  | cons hd rest ih =>
    intro k e hacc he p hp x hx
    obtain ⟨k1, es⟩ := hd
    unfold groupInsert at hp
    by_cases hk : k1 = k
    · rw [if_pos hk] at hp
      rcases List.mem_cons.mp hp with heq | hrest
      · rw [heq] at hx
        simp at hx
        rcases hx with hes | hee
        · exact hacc (k1, es) (by simp) x hes
        · rw [hee]
          exact he
      · exact hacc p (by simp [hrest]) x hx
    · rw [if_neg hk] at hp
      rcases List.mem_cons.mp hp with heq | hrest
      · rw [heq] at hx
        exact hacc (k1, es) (by simp) x hx
      · exact ih (fun q hq => hacc q (by simp [hq])) he p hrest x hx

theorem groupedByUnit_forall {P : StaffEntry → Prop} (gs : GlobalSettings)
    (weekly : List WeeklyRecord)
    (hP : ∀ e ∈ combinedStaffList gs weekly, P e) :
    ∀ p ∈ groupedByUnit gs weekly, ∀ x ∈ p.2, P x := by
  suffices haux : ∀ (todo : List StaffEntry) (acc : List (String × List StaffEntry)),
      (∀ e ∈ todo, P e) → (∀ p ∈ acc, ∀ x ∈ p.2, P x) →
      ∀ p ∈ todo.foldl (fun acc e => groupInsert acc e.unit e) acc, ∀ x ∈ p.2, P x by
    exact haux (combinedStaffList gs weekly) [] hP (by simp)
  intro todo
  induction todo with
  | nil => intro acc _ hacc; exact hacc
  | cons e rest ih =>
    intro acc htodo hacc
    exact ih (groupInsert acc e.unit e) (fun x hx => htodo x (by simp [hx]))
      (groupInsert_forall hacc (htodo e (by simp)))

theorem bucketFor_forall {P : StaffEntry → Prop}
    {grouped : List (String × List StaffEntry)}
    (hg : ∀ p ∈ grouped, ∀ x ∈ p.2, P x) (k : String) :
    ∀ x ∈ bucketFor grouped k, P x := by
  intro x hx
  unfold bucketFor at hx
  cases hfind : grouped.find? (fun p => p.1 = k) with
  | none => rw [hfind] at hx; simp at hx
  | some p =>
    rw [hfind] at hx
    simp at hx
    exact hg p (List.mem_of_find?_eq_some hfind) x hx

/-- Every entry of every bucket of the engine's output comes from the
combined list of active members. -/
theorem getStaffByUnit_mem {gs : GlobalSettings} {weekly : List WeeklyRecord}
    {p : String × List StaffEntry} (hp : p ∈ getStaffByUnit gs weekly)
    {e : StaffEntry} (he : e ∈ p.2) : e ∈ combinedStaffList gs weekly := by
  unfold getStaffByUnit at hp
  by_cases hempty : (activeStaff gs).isEmpty
  · rw [if_pos hempty] at hp
    simp at hp
  · rw [if_neg hempty] at hp
    rcases List.mem_map.mp hp with ⟨k, _, hk⟩
    rw [← hk] at he
    simp at he
    exact bucketFor_forall (groupedByUnit_forall gs weekly (fun x hx => hx)) k e
      (mem_sortCmp he)

/-- C8, confirmed: no inactive roster member ever appears in the view — every
output entry is the entry of some active member — and an all-inactive (or
empty) roster yields the empty mapping, a valid result. -/
theorem c8_active_filter (gs : GlobalSettings) (weekly : List WeeklyRecord) :
    (∀ p ∈ getStaffByUnit gs weekly, ∀ e ∈ p.2,
        ∃ m ∈ gs.staffList, m.isActive = true ∧ e.staffId = m.id)
    ∧ (activeStaff gs = [] → getStaffByUnit gs weekly = []) := by
  constructor
  · intro p hp e he
    have hmem : e ∈ combinedStaffList gs weekly := getStaffByUnit_mem hp he
    unfold combinedStaffList at hmem
    rcases List.mem_map.mp hmem with ⟨m, hm, hme⟩
    have hact : m ∈ gs.staffList ∧ m.isActive = true := by
      have := List.mem_filter.mp hm
      exact ⟨this.1, by simpa using this.2⟩
    refine ⟨m, hact.1, hact.2, ?_⟩
    rw [← hme]
    rfl
  · intro hempty
    unfold getStaffByUnit
    rw [if_pos (by simp [hempty])]

/-- All-inactive roster: closed instance of `c8_active_filter`. -/
def gsInactive : GlobalSettings :=
  { units := ["I"], staffList := [{ mAlice with isActive := false }] }

theorem c8_active_filter_witness : getStaffByUnit gsInactive [] = [] :=
  (c8_active_filter gsInactive []).2 (by decide)

/-!  C2: order of the unit buckets. -/

/-- The key list of one grouping step: an existing key keeps its place, a new
key is appended. -/
theorem groupInsert_keys :
    ∀ {acc : List (String × List StaffEntry)} {k : String} {e : StaffEntry},
      (groupInsert acc k e).map Prod.fst =
        if k ∈ acc.map Prod.fst then acc.map Prod.fst else acc.map Prod.fst ++ [k] := by
  intro acc
  induction acc with
  | nil => intro k e; simp [groupInsert]
  | cons hd rest ih =>
    intro k e
    obtain ⟨k1, es⟩ := hd
    unfold groupInsert
    by_cases hk : k1 = k
    · rw [if_pos hk]
      simp [hk]
    · rw [if_neg hk]
      have hne : k ≠ k1 := fun h => hk h.symm
      by_cases hmem : k ∈ rest.map Prod.fst
      · simp [ih, hmem, hne]
      · simp [ih, hmem, hne]

theorem groupedByUnit_keys_nodup (gs : GlobalSettings) (weekly : List WeeklyRecord) :
    ((groupedByUnit gs weekly).map Prod.fst).Nodup := by
  suffices haux : ∀ (todo : List StaffEntry) (acc : List (String × List StaffEntry)),
      (acc.map Prod.fst).Nodup →
      ((todo.foldl (fun acc e => groupInsert acc e.unit e) acc).map Prod.fst).Nodup by
    exact haux (combinedStaffList gs weekly) [] (by simp)
  intro todo
  induction todo with
  | nil => intro acc h; exact h
  | cons e rest ih =>
    intro acc hacc
    refine ih (groupInsert acc e.unit e) ?_
    rw [groupInsert_keys]
    by_cases hmem : e.unit ∈ acc.map Prod.fst
    · rw [if_pos hmem]; exact hacc
    · rw [if_neg hmem]
      simp [List.nodup_append, hacc, hmem]

/-- The comparator of the unit-key sort is antisymmetric on distinct keys
(the lone inconsistency of the JS comparator is the pair `("", "")`). -/
theorem unitKeyCmp_symm (units : List String) {a b : String} (hne : a ≠ b)
    (h : unitKeyCmp units a b = .gt) : unitKeyCmp units b a ≠ .gt := by
  unfold unitKeyCmp at h ⊢
  by_cases ha : a = ""
  · have hb : b ≠ "" := fun hbe => hne (ha.trans hbe.symm)
    rw [if_neg hb, if_pos ha]
    simp
  · by_cases hb : b = ""
    · rw [if_neg ha, if_pos hb] at h
      simp at h
    · rw [if_neg ha, if_neg hb] at h
      rw [if_neg hb, if_neg ha]
      cases hia : unitIdx units a with
      | none =>
        cases hib : unitIdx units b with
        | none =>
          rw [hia, hib] at h
          intro hgt
          exact strCmp_isTotal.le_of_gt_ne h hgt
        | some j =>
          intro hgt
          exact Ordering.noConfusion hgt
      | some i =>
        cases hib : unitIdx units b with
        | none =>
          rw [hia, hib] at h
          exact Ordering.noConfusion h
        | some j =>
          rw [hia, hib] at h
          intro hgt
          have h1 : j < i := natCmp_eq_gt.mp h
          have h2 : i < j := natCmp_eq_gt.mp hgt
          omega

theorem strLtB_conn {a b : String} (h1 : strLtB a b = false) (h2 : strLtB b a = false) :
    a = b := by
  have hd := charListLtB_conn a.data b.data h1 h2
  cases a
  cases b
  simp at hd
  rw [hd]

/-- The unit-key comparator is transitive on `≠ .gt`. -/
theorem unitKeyCmp_le_trans (units : List String) {a b c : String}
    (h1 : unitKeyCmp units a b ≠ .gt) (h2 : unitKeyCmp units b c ≠ .gt) :
    unitKeyCmp units a c ≠ .gt := by
  have ha : a ≠ "" := by
    intro h
    rw [h] at h1
    exact h1 (by simp [unitKeyCmp])
  have hb : b ≠ "" := by
    intro h
    rw [h] at h2
    exact h2 (by simp [unitKeyCmp])
  by_cases hc : c = ""
  · unfold unitKeyCmp
    rw [if_neg ha, if_pos hc]
    simp
  · unfold unitKeyCmp at h1 h2 ⊢
    rw [if_neg ha, if_neg hb] at h1
    rw [if_neg hb, if_neg hc] at h2
    rw [if_neg ha, if_neg hc]
    cases hia : unitIdx units a with
    | some i =>
      cases hic : unitIdx units c with
      | none => exact fun hgt => Ordering.noConfusion hgt
      | some k =>
        cases hib : unitIdx units b with
        | none =>
          rw [hib, hic] at h2
          exact absurd rfl h2
        | some j =>
          rw [hia, hib] at h1
          rw [hib, hic] at h2
          intro hgt
          have l0 : k < i := natCmp_eq_gt.mp hgt
          have l1 : i ≤ j := natCmp_ne_gt.mp h1
          have l2 : j ≤ k := natCmp_ne_gt.mp h2
          omega
    | none =>
      cases hib : unitIdx units b with
      | some j =>
        rw [hia, hib] at h1
        exact absurd rfl h1
      | none =>
        rw [hia, hib] at h1
        cases hic : unitIdx units c with
        | some k =>
          rw [hib, hic] at h2
          exact absurd rfl h2
        | none =>
          rw [hib, hic] at h2
          intro hgt
          exact strCmp_isTotal.leTrans a b c h1 h2 hgt

theorem unitIdx_of_mem {units : List String} {a : String} (ha : a ≠ "")
    (hmem : a ∈ units) (hnd : units.Nodup) :
    unitIdx units a = some (units.indexOf a) := by
  unfold unitIdx
  rw [if_neg ha, if_pos hmem]
  exact createOrderMap_nodup hmem hnd

theorem unitIdx_of_not_mem {units : List String} {a : String} (hmem : a ∉ units) :
    unitIdx units a = none := by
  unfold unitIdx
  by_cases ha : a = ""
  · rw [if_pos ha]
  · rw [if_neg ha, if_neg hmem]

/-- C2's ordering relation on unit bucket keys, as the claim states it:
keys in the unit CategorySet first, ascending by index; unknown keys next,
alphabetically; the empty-string key strictly last. -/
def unitBeforeB (units : List String) (a b : String) : Bool :=
  if a = "" then false
  else if b = "" then true
  else if a ∈ units then
    (if b ∈ units then decide (units.indexOf a < units.indexOf b) else true)
  else if b ∈ units then false
  else strLtB a b

/-- On a duplicate-free category set, the engine's comparator implies the
claim's strict before-relation on distinct keys. -/
theorem unitBefore_of_cmp (units : List String) (hnd : units.Nodup) {a b : String}
    (hne : a ≠ b) (h : unitKeyCmp units a b ≠ .gt) : unitBeforeB units a b = true := by
  have ha : a ≠ "" := by
    intro hae
    rw [hae] at h
    exact h (by simp [unitKeyCmp])
  unfold unitBeforeB
  rw [if_neg ha]
  by_cases hb : b = ""
  · rw [if_pos hb]
  · rw [if_neg hb]
    unfold unitKeyCmp at h
    rw [if_neg ha, if_neg hb] at h
    by_cases hma : a ∈ units
    · rw [if_pos hma]
      by_cases hmb : b ∈ units
      · rw [if_pos hmb]
        rw [unitIdx_of_mem ha hma hnd, unitIdx_of_mem hb hmb hnd] at h
        have hle : units.indexOf a ≤ units.indexOf b := natCmp_ne_gt.mp h
        have hne2 : units.indexOf a ≠ units.indexOf b := by
          intro he
          exact hne ((List.indexOf_inj hma hmb).mp he)
        simp
        omega
      · rw [if_neg hmb]
    · rw [if_neg hma]
      by_cases hmb : b ∈ units
      · rw [unitIdx_of_not_mem hma, unitIdx_of_mem hb hmb hnd] at h
        exact absurd rfl h
      · rw [if_neg hmb]
        rw [unitIdx_of_not_mem hma, unitIdx_of_not_mem hmb] at h
        cases hlt : strLtB a b with
        | true => rfl
        | false =>
          exfalso
          exact hne (strLtB_conn hlt (strLtB_not_gt h))

/-- C2, confirmed: for every roster, category sets and weekly schedule (the
unit CategorySet being duplicate-free), the buckets of the view appear with
valid units first in CategorySet order, unknown non-empty unit names after
them in alphabetical order, and the empty-string bucket strictly last. -/
theorem c2_unit_bucket_order (gs : GlobalSettings) (weekly : List WeeklyRecord)
    (hnd : gs.units.Nodup) :
    ((getStaffByUnit gs weekly).map Prod.fst).Pairwise
      (fun a b => unitBeforeB gs.units a b = true) := by
  unfold getStaffByUnit
  by_cases hempty : (activeStaff gs).isEmpty
  · rw [if_pos hempty]
    simp
  · rw [if_neg hempty]
    have hkeys :
        (((sortedUnitKeys gs weekly).map
            (fun k => (k, sortCmp (staffSortCmp gs) (bucketFor (groupedByUnit gs weekly) k)))).map
          Prod.fst) = sortedUnitKeys gs weekly := by
      rw [List.map_map]
      exact List.map_id (sortedUnitKeys gs weekly)
    rw [hkeys]
    have hnodup := groupedByUnit_keys_nodup gs weekly
    have hpw := sortCmp_pairwise_nodup hnodup
      (fun a b _ _ hne hgt => unitKeyCmp_symm gs.units hne hgt)
      (fun a b c _ _ _ h1 h2 => unitKeyCmp_le_trans gs.units h1 h2)
    exact hpw.imp (fun hab => unitBefore_of_cmp gs.units hnd hab.1 hab.2)

/-- Closed instance of `c2_unit_bucket_order` at a concrete input. -/
theorem c2_unit_bucket_order_witness :
    ((getStaffByUnit gsBase recsEmptyUnit).map Prod.fst).Pairwise
      (fun a b => unitBeforeB gsBase.units a b = true) :=
  c2_unit_bucket_order gsBase recsEmptyUnit (by decide)

/-!  C3: order of the entries inside one unit bucket. -/

/-- C3's per-category comparison key, as the claim states it: values present
in the CategorySet ascending by index, values absent from it ("orphaned")
after all present values and alphabetical among themselves. -/
def catCmp (cats : List String) (x y : String) : Ordering :=
  if x ∈ cats then
    (if y ∈ cats then natCmp (cats.indexOf x) (cats.indexOf y) else .lt)
  else if y ∈ cats then .gt
  else strCmp x y

/-- C3's full entry comparison: (a) group, (b) job title, (c) roster
`sortOrder` ascending, (d) name. -/
def claimEntryCmp (gs : GlobalSettings) (a b : StaffEntry) : Ordering :=
  (catCmp gs.groups a.group b.group).then
    ((catCmp gs.jobTitles a.jobTitle b.jobTitle).then
      ((cmpOptNat a.sortOrder b.sortOrder).then (strCmp a.name b.name)))

/-- The claim's non-strict before-or-tied relation on bucket entries. -/
def entryLEb (gs : GlobalSettings) (a b : StaffEntry) : Bool :=
  decide (claimEntryCmp gs a b ≠ .gt)

theorem catCmp_isTotal (cats : List String) : IsTotalCmp (catCmp cats) := by
  constructor
  · intro x y
    unfold catCmp
    by_cases hx : x ∈ cats
    · by_cases hy : y ∈ cats
      · rw [if_pos hx, if_pos hy, if_pos hy, if_pos hx]
        exact natCmp_isTotal.symm _ _
      · rw [if_pos hx, if_neg hy, if_neg hy, if_pos hx]
        rfl
    · by_cases hy : y ∈ cats
      · rw [if_neg hx, if_pos hy, if_pos hy, if_neg hx]
        rfl
      · rw [if_neg hx, if_neg hy, if_neg hy, if_neg hx]
        exact strCmp_isTotal.symm _ _
  · intro x y z h1 h2
    unfold catCmp at h1 h2 ⊢
    by_cases hx : x ∈ cats
    · by_cases hz : z ∈ cats
      · rw [if_pos hx, if_pos hz]
        by_cases hy : y ∈ cats
        · rw [if_pos hx, if_pos hy] at h1
          rw [if_pos hy, if_pos hz] at h2
          intro hgt
          have l0 := natCmp_eq_gt.mp hgt
          have l1 := natCmp_ne_gt.mp h1
          have l2 := natCmp_ne_gt.mp h2
          omega
        · rw [if_neg hy, if_pos hz] at h2
          exact absurd rfl h2
      · rw [if_pos hx, if_neg hz]
        by_cases hz2 : z ∈ cats
        · exact absurd hz2 hz
        · simp
    · by_cases hz : z ∈ cats
      · by_cases hy : y ∈ cats
        · rw [if_neg hx, if_pos hy] at h1
          exact absurd rfl h1
        · rw [if_neg hy, if_pos hz] at h2
          exact absurd rfl h2
      · rw [if_neg hx, if_neg hz]
        by_cases hy : y ∈ cats
        · rw [if_neg hx, if_pos hy] at h1
          exact absurd rfl h1
        · rw [if_neg hx, if_neg hy] at h1
          rw [if_neg hy, if_neg hz] at h2
          exact strCmp_isTotal.leTrans x y z h1 h2

theorem claimEntryCmp_isTotal (gs : GlobalSettings) : IsTotalCmp (claimEntryCmp gs) := by
  have h :=
    ((catCmp_isTotal gs.groups).comap (fun e : StaffEntry => e.group)).thenCmp
      (((catCmp_isTotal gs.jobTitles).comap (fun e : StaffEntry => e.jobTitle)).thenCmp
        ((cmpOptNat_isTotal.comap (fun e : StaffEntry => e.sortOrder)).thenCmp
          (strCmp_isTotal.comap (fun e : StaffEntry => e.name))))
  exact h

/-- An orphan-flagged value really is absent from its category set. -/
theorem isOrphanedVal_true {cats : List String} {v : Option String} {d : String}
    (h : isOrphanedVal cats v = true) : v.getD d ∉ cats := by
  cases v with
  | none => exact absurd h (by simp [isOrphanedVal])
  | some s =>
    have h2 : (if s = "" then false else decide (s ∉ cats)) = true := h
    by_cases hs : s = ""
    · rw [if_pos hs] at h2
      exact absurd h2 (by simp)
    · rw [if_neg hs] at h2
      exact of_decide_eq_true h2

/-- One comparator stage of the source equals the claim's category key when
the orphan flag of each side agrees with set membership of its value. -/
theorem stage_eq_cat {cats : List String} (hnd : cats.Nodup) {orphA orphB : Bool}
    {va vb : String} (hA : orphA = true ↔ va ∉ cats) (hB : orphB = true ↔ vb ∉ cats) :
    stageCmp orphA orphB (stageIdx cats orphA va) (stageIdx cats orphB vb) va vb
      = catCmp cats va vb := by
  by_cases hma : va ∈ cats
  · have hoA : orphA = false := by
      cases horphA : orphA
      · rfl
      · exact absurd hma (hA.mp horphA)
    by_cases hmb : vb ∈ cats
    · have hoB : orphB = false := by
        cases horphB : orphB
        · rfl
        · exact absurd hmb (hB.mp horphB)
      rw [hoA, hoB]
      have hia : stageIdx cats false va = some (cats.indexOf va) := by
        unfold stageIdx
        simpa using createOrderMap_nodup hma hnd
      have hib : stageIdx cats false vb = some (cats.indexOf vb) := by
        unfold stageIdx
        simpa using createOrderMap_nodup hmb hnd
      rw [hia, hib]
      unfold stageCmp catCmp
      rw [if_pos hma, if_pos hmb]
      by_cases hij : cats.indexOf va = cats.indexOf vb
      · rw [if_neg (by simp [hij])]
        simp [natCmp_eq_eq.mpr hij]
      · rw [if_pos (by simp [hij])]
        rfl
    · have hoB : orphB = true := hB.mpr hmb
      rw [hoA, hoB]
      have hia : stageIdx cats false va = some (cats.indexOf va) := by
        unfold stageIdx
        simpa using createOrderMap_nodup hma hnd
      have hib : stageIdx cats true vb = none := by
        unfold stageIdx
        simp
      rw [hia, hib]
      unfold stageCmp catCmp
      rw [if_pos hma, if_neg hmb]
      rw [if_pos (by simp)]
      rfl
  · have hoA : orphA = true := hA.mpr hma
    rw [hoA]
    have hia : stageIdx cats true va = none := by
      unfold stageIdx
      simp
    rw [hia]
    by_cases hmb : vb ∈ cats
    · have hoB : orphB = false := by
        cases horphB : orphB
        · rfl
        · exact absurd hmb (hB.mp horphB)
      rw [hoB]
      have hib : stageIdx cats false vb = some (cats.indexOf vb) := by
        unfold stageIdx
        simpa using createOrderMap_nodup hmb hnd
      rw [hib]
      unfold stageCmp catCmp
      rw [if_neg hma, if_pos hmb]
      rw [if_pos (by simp)]
      rfl
    · have hoB : orphB = true := hB.mpr hmb
      rw [hoB]
      have hib : stageIdx cats true vb = none := by
        unfold stageIdx
        simp
      rw [hib]
      unfold stageCmp catCmp
      rw [if_neg hma, if_neg hmb]
      rw [if_neg (by simp)]
      simp

/-- Under the orphan/membership agreement the source's in-bucket comparator
is exactly the claim's lexicographic comparison. -/
theorem staffSortCmp_eq_claim {gs : GlobalSettings} {a b : StaffEntry}
    (hndg : gs.groups.Nodup) (hndj : gs.jobTitles.Nodup)
    (hga : a.isOrphanedGroup = true ↔ a.group ∉ gs.groups)
    (hgb : b.isOrphanedGroup = true ↔ b.group ∉ gs.groups)
    (hja : a.isOrphanedJobTitle = true ↔ a.jobTitle ∉ gs.jobTitles)
    (hjb : b.isOrphanedJobTitle = true ↔ b.jobTitle ∉ gs.jobTitles) :
    staffSortCmp gs a b = claimEntryCmp gs a b := by
  unfold staffSortCmp claimEntryCmp
  rw [stage_eq_cat hndg hga hgb, stage_eq_cat hndj hja hjb]

theorem combined_orphGroup (gs : GlobalSettings) (weekly : List WeeklyRecord) :
    ∀ e ∈ combinedStaffList gs weekly, e.isOrphanedGroup = true → e.group ∉ gs.groups := by
  intro e he h
  rcases List.mem_map.mp he with ⟨m, _, hme⟩
  rw [← hme] at h ⊢
  exact isOrphanedVal_true h

theorem combined_orphJobTitle (gs : GlobalSettings) (weekly : List WeeklyRecord) :
    ∀ e ∈ combinedStaffList gs weekly, e.isOrphanedJobTitle = true → e.jobTitle ∉ gs.jobTitles := by
  intro e he h
  rcases List.mem_map.mp he with ⟨m, _, hme⟩
  rw [← hme] at h ⊢
  exact isOrphanedVal_true h

/-- C3, corrected: inside every unit bucket the entries are sorted by the
claim's lexicographic key — group by CategorySet index with absent groups
last and alphabetical, then job title likewise, then roster `sortOrder`,
then name — provided the two CategorySets are duplicate-free and every
entry whose effective group or job title is absent from its CategorySet
carries the orphan flag (i.e. the absent value stems from a non-empty weekly
override).  Without the proviso the engine leaves a roster-default value
that references a deleted category tied with every orphan-flagged value and
falls through to the job-title key (see the counterexample). -/
theorem c3_in_bucket_order (gs : GlobalSettings) (weekly : List WeeklyRecord)
    (hndg : gs.groups.Nodup) (hndj : gs.jobTitles.Nodup)
    (hGrp : ∀ e ∈ combinedStaffList gs weekly, e.group ∉ gs.groups → e.isOrphanedGroup = true)
    (hJob : ∀ e ∈ combinedStaffList gs weekly,
      e.jobTitle ∉ gs.jobTitles → e.isOrphanedJobTitle = true) :
    ∀ p ∈ getStaffByUnit gs weekly, p.2.Pairwise (fun a b => entryLEb gs a b = true) := by
  intro p hp
  unfold getStaffByUnit at hp
  by_cases hempty : (activeStaff gs).isEmpty
  · rw [if_pos hempty] at hp
    simp at hp
  · rw [if_neg hempty] at hp
    rcases List.mem_map.mp hp with ⟨k, hk, hkp⟩
    rw [← hkp]
    simp only
    have hbmem : ∀ e ∈ bucketFor (groupedByUnit gs weekly) k, e ∈ combinedStaffList gs weekly :=
      bucketFor_forall (groupedByUnit_forall gs weekly (fun x hx => hx)) k
    have hP : ∀ e ∈ bucketFor (groupedByUnit gs weekly) k,
        (e.isOrphanedGroup = true ↔ e.group ∉ gs.groups) ∧
        (e.isOrphanedJobTitle = true ↔ e.jobTitle ∉ gs.jobTitles) := by
      intro e he
      have hc := hbmem e he
      exact ⟨⟨combined_orphGroup gs weekly e hc, hGrp e hc⟩,
             ⟨combined_orphJobTitle gs weekly e hc, hJob e hc⟩⟩
    have hbr : ∀ a ∈ bucketFor (groupedByUnit gs weekly) k,
        ∀ b ∈ bucketFor (groupedByUnit gs weekly) k,
        staffSortCmp gs a b = claimEntryCmp gs a b := by
      intro a ha b hb
      exact staffSortCmp_eq_claim hndg hndj (hP a ha).1 (hP b hb).1 (hP a ha).2 (hP b hb).2
    have hpw := @sortCmp_pairwise_of StaffEntry (staffSortCmp gs)
      (bucketFor (groupedByUnit gs weekly) k)
      (fun a b ha hb hgt => by
        rw [hbr b hb a ha]
        rw [hbr a ha b hb] at hgt
        exact (claimEntryCmp_isTotal gs).le_of_gt_ne hgt)
      (fun a b c ha hb hc h1 h2 => by
        rw [hbr a ha b hb] at h1
        rw [hbr b hb c hc] at h2
        rw [hbr a ha c hc]
        exact (claimEntryCmp_isTotal gs).leTrans a b c h1 h2)
    refine hpw.imp_of_mem ?_
    intro a b ha hb hr
    have ha2 := mem_sortCmp ha
    have hb2 := mem_sortCmp hb
    unfold entryLEb
    refine decide_eq_true ?_
    rw [← hbr a ha2 b hb2]
    exact hr

/-- Closed instance of `c3_in_bucket_order` at a concrete input and bucket. -/
theorem c3_in_bucket_order_witness :
    (sortCmp (staffSortCmp gsBase) (bucketFor (groupedByUnit gsBase []) "I")).Pairwise
      (fun a b => entryLEb gsBase a b = true) :=
  c3_in_bucket_order gsBase [] (by decide) (by decide) (by decide) (by decide)
    ("I", sortCmp (staffSortCmp gsBase) (bucketFor (groupedByUnit gsBase []) "I"))
    (by decide)

def gsC3 : GlobalSettings :=
  { units := ["U"], groups := ["G"], jobTitles := ["j1", "j2"],
    staffList :=
      [{ id := "a", name := "A", defaultUnit := some "U", defaultGroup := some "Z",
         defaultJobTitle := some "j1", sortOrder := some 0 },
       { id := "b", name := "B", defaultUnit := some "U", defaultGroup := some "G",
         defaultJobTitle := some "j2", sortOrder := some 1 }] }

def recsC3 : List WeeklyRecord := [{ staffId := "b", group := some "A" }]

/-- C3 as literally stated is false: in the bucket of unit `"U"`, the entry
with roster-default group `"Z"` (absent from the set, orphan flag false, job
index 0) is placed before the override-orphaned group `"A"` (flag true, job
index 1), although the claim's rule sorts absent groups alphabetically —
`"A"` before `"Z"`. -/
theorem c3_counterexample :
    ¬ ∀ p ∈ getStaffByUnit gsC3 recsC3,
        p.2.Pairwise (fun a b => entryLEb gsC3 a b = true) := by
  decide

/-!  `saveGlobalSettings` (§4, §7): the wholesale settings save with its
accidental-wipe guard.  The Firestore write is modelled by the returned
value: `some settingsToSave` when the document is written, `none` when the
save is refused.  The in-memory state is untouched on refusal. -/

def cmpStaffSortOrder (a b : StaffMember) : Ordering :=
  cmpOptNat a.sortOrder b.sortOrder

/-- The document written by a successful save: the staff list sorted by
`sortOrder ?? Infinity` (the per-member shallow copies are the identity). -/
def settingsToSave (ns : GlobalSettings) : GlobalSettings :=
  { ns with staffList := sortCmp cmpStaffSortOrder ns.staffList }

def saveGlobalSettings (current : Option GlobalSettings) (ns : GlobalSettings)
    (bypass : Bool) : Option GlobalSettings :=
  if !bypass then
    let allCategoriesEmpty := ns.units.isEmpty && ns.groups.isEmpty && ns.jobTitles.isEmpty
    let allDataEmpty := allCategoriesEmpty && ns.staffList.isEmpty && ns.shiftTypes.isEmpty
      && ns.timeSlots.isEmpty
    match current with
    | some cs =>
      if !allDataEmpty then
        let hadData := !cs.units.isEmpty || !cs.groups.isEmpty || !cs.jobTitles.isEmpty
          || !cs.staffList.isEmpty || !cs.shiftTypes.isEmpty
        if hadData && allCategoriesEmpty && (!ns.staffList.isEmpty || !ns.shiftTypes.isEmpty) then
          none
        else if hadData && allDataEmpty then
          none
        else
          some (settingsToSave ns)
      else
        some (settingsToSave ns)
    | none => some (settingsToSave ns)
  else
    some (settingsToSave ns)

/-- C6's "currently loaded settings contain data": the source checks the
five collections (time slots are not part of the check). -/
def hasLoadedData (cs : GlobalSettings) : Prop :=
  cs.units ≠ [] ∨ cs.groups ≠ [] ∨ cs.jobTitles ≠ [] ∨ cs.staffList ≠ [] ∨ cs.shiftTypes ≠ []

/-- C6, confirmed: a save without the bypass flag is refused — nothing is
written — whenever the loaded settings contain data and the new settings
empty all three category lists while keeping a non-empty staff list or
shift-type list; with the bypass flag the guard is skipped and the save
always goes through. -/
theorem c6_integrity_guard (cs ns : GlobalSettings) :
    (hasLoadedData cs → ns.units = [] → ns.groups = [] → ns.jobTitles = [] →
      (ns.staffList ≠ [] ∨ ns.shiftTypes ≠ []) →
      saveGlobalSettings (some cs) ns false = none)
    ∧ (∀ current, saveGlobalSettings current ns true = some (settingsToSave ns)) := by
  constructor
  · intro hdata hu hg hj hrest
    unfold saveGlobalSettings
    simp only [Bool.not_false, if_pos]
    have hcat : (ns.units.isEmpty && ns.groups.isEmpty && ns.jobTitles.isEmpty) = true := by
      simp [hu, hg, hj]
    have hne : (ns.staffList.isEmpty && ns.shiftTypes.isEmpty) = false := by
      rcases hrest with h | h
      · simp [List.isEmpty_eq_false_iff_exists_mem.mpr (List.exists_mem_of_ne_nil _ h)]
      · cases hs : ns.staffList.isEmpty <;> simp [hs]
        simpa [List.isEmpty_iff] using h
    have hall : (ns.units.isEmpty && ns.groups.isEmpty && ns.jobTitles.isEmpty
        && ns.staffList.isEmpty && ns.shiftTypes.isEmpty && ns.timeSlots.isEmpty) = false := by
      rcases hrest with h | h
      · have : ns.staffList.isEmpty = false := by simpa [List.isEmpty_iff] using h
        simp [this]
      · have : ns.shiftTypes.isEmpty = false := by simpa [List.isEmpty_iff] using h
        simp [this]
    have hdatab : (!cs.units.isEmpty || !cs.groups.isEmpty || !cs.jobTitles.isEmpty
        || !cs.staffList.isEmpty || !cs.shiftTypes.isEmpty) = true := by
      unfold hasLoadedData at hdata
      simp
      tauto
    rw [if_pos (by simp [hall]), if_pos]
    rw [hdatab, hcat]
    simp only [Bool.true_and]
    rcases hrest with h | h
    · have : ns.staffList.isEmpty = false := by simpa [List.isEmpty_iff] using h
      simp [this]
    · have : ns.shiftTypes.isEmpty = false := by simpa [List.isEmpty_iff] using h
      simp [this]
  · intro current
    unfold saveGlobalSettings
    simp

/-!  Roster mutations (§4.2).  Each returns the new staff list (the hook then
hands it to `saveGlobalSettings`); `none` models the early `return false`. -/

/-- JS `{...staff, ...patch}` for the staff-member shape: fields the patch
object does not carry (`none`) keep the old value; `id`, `name` and
`isActive` are always carried by the callers' patch objects. -/
def mergeStaff (old p : StaffMember) : StaffMember :=
  { id := p.id, name := p.name, isActive := p.isActive,
    employeeNumber := p.employeeNumber <|> old.employeeNumber,
    defaultUnit := p.defaultUnit <|> old.defaultUnit,
    defaultGroup := p.defaultGroup <|> old.defaultGroup,
    defaultJobTitle := p.defaultJobTitle <|> old.defaultJobTitle,
    sortOrder := p.sortOrder <|> old.sortOrder }

def addStaffToList (gs : GlobalSettings) (d : StaffMember) : Option (List StaffMember) :=
  if d.id = "" then none
  else if gs.staffList.any (fun s => s.id = d.id) then none
  else some (sortCmp cmpStaffSortOrder
    (gs.staffList ++ [{ d with sortOrder := some (d.sortOrder.getD gs.staffList.length) }]))

def updateStaffInList (gs : GlobalSettings) (p : StaffMember) : Option (List StaffMember) :=
  if p.id = "" then none
  else some (sortCmp cmpStaffSortOrder
    (gs.staffList.map (fun s => if s.id = p.id then mergeStaff s p else s)))

/-- `deleteStaffFromList`'s list transformation: filter out the member and
re-assign `sortOrder` from the new array index. -/
def deleteStaffList (staffList : List StaffMember) (staffId : String) : List StaffMember :=
  (staffList.filter (fun s => s.id ≠ staffId)).enum.map
    (fun q => { q.2 with sortOrder := some q.1 })

/-- `updateStaffListOrder`: assign `sortOrder` from the position in the
caller-supplied ordering. -/
def updateStaffListOrder (ordered : List StaffMember) : List StaffMember :=
  ordered.enum.map (fun q => { q.2 with sortOrder := some q.1 })

/-- C7's invariant: `sortOrder` values are exactly `0..N-1` in list order. -/
@[reducible] def DenseOrder (l : List StaffMember) : Prop :=
  l.map (fun s => s.sortOrder) = (List.range l.length).map some

theorem reindex_dense (l : List StaffMember) :
    DenseOrder (l.enum.map (fun q => { q.2 with sortOrder := some q.1 })) := by
  unfold DenseOrder
  rw [List.map_map, List.length_map, List.enum_length]
  have h1 : ((fun s : StaffMember => s.sortOrder) ∘
      fun q : Nat × StaffMember => { q.2 with sortOrder := some q.1 })
      = (fun q : Nat × StaffMember => some q.1) := rfl
  rw [h1]
  have h2 : (fun q : Nat × StaffMember => some q.1)
      = (some ∘ fun q : Nat × StaffMember => q.1) := rfl
  rw [h2, ← List.map_map, List.enum_map_fst]

theorem dense_pairwise {l : List StaffMember} (h : DenseOrder l) :
    l.Pairwise (fun a b => cmpStaffSortOrder a b ≠ .gt) := by
  have hmap : (l.map (fun s => s.sortOrder)).Pairwise (fun x y => cmpOptNat x y ≠ .gt) := by
    rw [h]
    refine List.pairwise_map.mpr ?_
    refine (List.pairwise_lt_range l.length).imp ?_
    intro i j hij
    show cmpOptNat (some i) (some j) ≠ .gt
    show natCmp i j ≠ .gt
    exact natCmp_ne_gt.mpr (le_of_lt hij)
  exact List.pairwise_map.mp hmap

theorem dense_mem_lt {l : List StaffMember} (h : DenseOrder l) {a : StaffMember}
    (ha : a ∈ l) : ∃ i, a.sortOrder = some i ∧ i < l.length := by
  have hmem : a.sortOrder ∈ l.map (fun s => s.sortOrder) := List.mem_map_of_mem _ ha
  rw [h] at hmem
  rcases List.mem_map.mp hmem with ⟨i, hi, hio⟩
  exact ⟨i, hio.symm, List.mem_range.mp hi⟩

theorem update_list_maps {gs : GlobalSettings} {p : StaffMember}
    (hkeep : ∀ s ∈ gs.staffList, s.id = p.id →
      (p.sortOrder = none ∨ p.sortOrder = s.sortOrder)) :
    ((gs.staffList.map (fun s => if s.id = p.id then mergeStaff s p else s)).map
        (fun s => s.sortOrder) = gs.staffList.map (fun s => s.sortOrder))
    ∧ ((gs.staffList.map (fun s => if s.id = p.id then mergeStaff s p else s)).map
        (fun s => s.id) = gs.staffList.map (fun s => s.id)) := by
  constructor
  · rw [List.map_map]
    refine List.map_congr_left ?_
    intro s hs
    show (if s.id = p.id then mergeStaff s p else s).sortOrder = s.sortOrder
    by_cases hid : s.id = p.id
    · rw [if_pos hid]
      show (p.sortOrder <|> s.sortOrder) = s.sortOrder
      rcases hkeep s hs hid with h | h
      · rw [h]
        simp
      · cases hps : p.sortOrder with
        | none => rfl
        | some v =>
          rw [hps] at h
          rw [← h]
          simp
    · rw [if_neg hid]
  · rw [List.map_map]
    refine List.map_congr_left ?_
    intro s hs
    show (if s.id = p.id then mergeStaff s p else s).id = s.id
    by_cases hid : s.id = p.id
    · rw [if_pos hid]
      exact hid.symm
    · rw [if_neg hid]

theorem reindex_ids (l : List StaffMember) :
    (l.enum.map (fun q => { q.2 with sortOrder := some q.1 })).map (fun s => s.id)
      = l.map (fun s => s.id) := by
  rw [List.map_map]
  have h1 : ((fun s : StaffMember => s.id) ∘
      fun q : Nat × StaffMember => { q.2 with sortOrder := some q.1 })
      = ((fun s : StaffMember => s.id) ∘ Prod.snd) := rfl
  rw [h1, ← List.map_map, List.enum_map_snd]

/-- C7, corrected: starting from a roster whose `sortOrder` is dense `0..N-1`
in list order, removal (`deleteStaffFromList`) and reorder
(`updateStaffListOrder`) always re-establish the invariant — removal keeping
the remaining members' relative order — and `addStaffToList` /
`updateStaffInList` re-establish it when the new member carries no explicit
`sortOrder` (resp. when the patch does not change the member's `sortOrder`);
ids stay unique under each operation (reorder applied to a permutation of
the roster). -/
theorem c7_roster_mutations (gs : GlobalSettings) (sid : String) (d p : StaffMember)
    (ordered : List StaffMember) (hdense : DenseOrder gs.staffList) :
    (DenseOrder (deleteStaffList gs.staffList sid)
      ∧ (deleteStaffList gs.staffList sid).map (fun s => s.id)
          = (gs.staffList.filter (fun s => s.id ≠ sid)).map (fun s => s.id)
      ∧ ((gs.staffList.map (fun s => s.id)).Nodup →
          ((deleteStaffList gs.staffList sid).map (fun s => s.id)).Nodup))
    ∧ (DenseOrder (updateStaffListOrder ordered)
      ∧ (List.Perm ordered gs.staffList → (gs.staffList.map (fun s => s.id)).Nodup →
          ((updateStaffListOrder ordered).map (fun s => s.id)).Nodup))
    ∧ (∀ l2, d.sortOrder = none → addStaffToList gs d = some l2 →
        DenseOrder l2
        ∧ l2.map (fun s => s.id) = gs.staffList.map (fun s => s.id) ++ [d.id]
        ∧ ((gs.staffList.map (fun s => s.id)).Nodup → (l2.map (fun s => s.id)).Nodup))
    ∧ (∀ l2, (∀ s ∈ gs.staffList, s.id = p.id →
          (p.sortOrder = none ∨ p.sortOrder = s.sortOrder)) →
        updateStaffInList gs p = some l2 →
        DenseOrder l2 ∧ l2.map (fun s => s.id) = gs.staffList.map (fun s => s.id)) := by
  refine ⟨⟨reindex_dense _, reindex_ids _, ?_⟩, ⟨reindex_dense _, ?_⟩, ?_, ?_⟩
  · intro hnd
    unfold deleteStaffList
    rw [reindex_ids]
    exact hnd.sublist ((List.filter_sublist gs.staffList).map (fun s => s.id))
  · intro hperm hnd
    unfold updateStaffListOrder
    rw [reindex_ids]
    exact ((hperm.map (fun s => s.id)).nodup_iff).mpr hnd
  · intro l2 hso hadd
    unfold addStaffToList at hadd
    by_cases h1 : d.id = ""
    · rw [if_pos h1] at hadd
      exact Option.noConfusion hadd
    · rw [if_neg h1] at hadd
      by_cases h2 : (gs.staffList.any (fun s => s.id = d.id)) = true
      · rw [if_pos h2] at hadd
        exact Option.noConfusion hadd
      · rw [if_neg h2] at hadd
        have hl2 : l2 = sortCmp cmpStaffSortOrder
            (gs.staffList ++ [{ d with sortOrder := some (d.sortOrder.getD gs.staffList.length) }]) :=
          (Option.some.inj hadd).symm
        have hnm : ({ d with sortOrder := some (d.sortOrder.getD gs.staffList.length) } : StaffMember)
            = { d with sortOrder := some gs.staffList.length } := by
          rw [hso]
          rfl
        rw [hnm] at hl2
        have hpair : (gs.staffList ++ [{ d with sortOrder := some gs.staffList.length }]).Pairwise
            (fun a b => cmpStaffSortOrder a b ≠ .gt) := by
          refine List.pairwise_append.mpr ⟨dense_pairwise hdense, by simp, ?_⟩
          intro a ha b hb
          rw [List.mem_singleton] at hb
          rw [hb]
          rcases dense_mem_lt hdense ha with ⟨i, hio, hlt⟩
          show cmpOptNat a.sortOrder (some gs.staffList.length) ≠ .gt
          rw [hio]
          show natCmp i gs.staffList.length ≠ .gt
          exact natCmp_ne_gt.mpr (le_of_lt hlt)
        have hfin : l2 = gs.staffList ++ [{ d with sortOrder := some gs.staffList.length }] := by
          rw [hl2]
          exact sortCmp_of_pairwise hpair
        have hnotmem : d.id ∉ gs.staffList.map (fun s => s.id) := by
          intro hmem
          rcases List.mem_map.mp hmem with ⟨s, hs, hsid⟩
          simp [List.any_eq_true] at h2
          exact h2 s hs hsid
        refine ⟨?_, ?_, ?_⟩
        · unfold DenseOrder
          rw [hfin, List.map_append, hdense, List.length_append]
          simp [List.range_succ]
        · rw [hfin, List.map_append]
          rfl
        · intro hnd
          rw [hfin, List.map_append]
          simp [List.nodup_append, hnd]
          exact fun s hs hsid => (by simp [List.any_eq_true] at h2; exact h2 s hs hsid)
  · intro l2 hkeep hupd
    unfold updateStaffInList at hupd
    by_cases h1 : p.id = ""
    · rw [if_pos h1] at hupd
      exact Option.noConfusion hupd
    · rw [if_neg h1] at hupd
      have hl2 : l2 = sortCmp cmpStaffSortOrder
          (gs.staffList.map (fun s => if s.id = p.id then mergeStaff s p else s)) :=
        (Option.some.inj hupd).symm
      have hmaps := update_list_maps hkeep
      have hd2 : DenseOrder (gs.staffList.map (fun s => if s.id = p.id then mergeStaff s p else s)) := by
        unfold DenseOrder
        rw [hmaps.1, List.length_map]
        exact hdense
      have hfin : l2 = gs.staffList.map (fun s => if s.id = p.id then mergeStaff s p else s) := by
        rw [hl2]
        exact sortCmp_of_pairwise (dense_pairwise hd2)
      constructor
      · rw [hfin]
        exact hd2
      · rw [hfin]
        exact hmaps.2

def gsC7 : GlobalSettings :=
  { units := ["I"], staffList := [{ id := "a", name := "A", sortOrder := some 0 }] }

def mC7 : StaffMember := { id := "b", name := "B", sortOrder := some 5 }

/-- C7 as literally stated is false: adding a member that carries the
explicit `sortOrder` 5 to a dense one-member roster succeeds and leaves the
list `[0, 5]`, which is not dense. -/
theorem c7_counterexample :
    DenseOrder gsC7.staffList
    ∧ addStaffToList gsC7 mC7 = some [{ id := "a", name := "A", sortOrder := some 0 },
        { id := "b", name := "B", sortOrder := some 5 }]
    ∧ ¬ DenseOrder [{ id := "a", name := "A", sortOrder := some 0 },
        { id := "b", name := "B", sortOrder := some 5 }] := by
  refine ⟨by decide, by decide, by decide⟩

/-- Closed instance of `c7_roster_mutations` at a concrete input. -/
theorem c7_roster_mutations_witness :
    DenseOrder (deleteStaffList gsC7.staffList "a") :=
  (c7_roster_mutations gsC7 "a" mC7 mC7 [] (by decide)).1.1

/-!  The weekly-schedule write path: `saveWeeklySchedule` normalizes every
record before writing (`s.x || ""`, `s.shifts || {}`), and
`updateStaffInWeeklySchedule` builds its stored record with the same
normalization before re-saving the whole week. -/

/-- The per-record normalization of `saveWeeklySchedule` /
`updateStaffInWeeklySchedule`'s `dataToStore`. -/
def cleanRecord (r : WeeklyRecord) : WeeklyRecord :=
  { staffId := r.staffId,
    name := some (strOrEmpty r.name),
    unit := some (strOrEmpty r.unit),
    group := some (strOrEmpty r.group),
    jobTitle := some (strOrEmpty r.jobTitle),
    shifts := some (r.shifts.getD []) }

/-- The document `saveWeeklySchedule` writes for a week. -/
def saveWeeklySchedule (sched : WeeklySchedule) : WeeklySchedule :=
  { weekStartDate := sched.weekStartDate, staff := sched.staff.map cleanRecord }

/-- Replace the first record with the given `staffId` (the source finds
`existingIndex` with `findIndex` and maps `index === existingIndex` to the
new data, which replaces exactly the first match). -/
def replaceFirst (staff : List WeeklyRecord) (sid : String) (data : WeeklyRecord) :
    List WeeklyRecord :=
  match staff with
  | [] => []
  | r :: rest => if r.staffId = sid then data :: rest else r :: replaceFirst rest sid data

/-- `updateStaffInWeeklySchedule`: replace the member's existing record, or
append a new one; the stored record is the normalized `dataToStore`. -/
def updateStaffInWeeklySchedule (sched : WeeklySchedule) (d : WeeklyRecord) : WeeklySchedule :=
  if sched.staff.any (fun s => s.staffId = d.staffId) then
    { sched with staff := replaceFirst sched.staff d.staffId (cleanRecord d) }
  else
    { sched with staff := sched.staff ++ [cleanRecord d] }

theorem mem_replaceFirst {sid : String} {data : WeeklyRecord} :
    ∀ {staff : List WeeklyRecord}, (staff.any (fun s => s.staffId = sid)) = true →
      data ∈ replaceFirst staff sid data := by
  intro staff
  induction staff with
  | nil => intro h; simp at h
  | cons r rest ih =>
    intro h
    unfold replaceFirst
    by_cases hr : r.staffId = sid
    · rw [if_pos hr]
      simp
    · rw [if_neg hr]
      simp only [List.any_cons] at h
      have : (rest.any (fun s => s.staffId = sid)) = true := by
        cases hrest : rest.any (fun s => s.staffId = sid)
        · rw [hrest] at h
          simp [hr] at h
        · rfl
      simp [ih this]

/-- C9's record shape: every field present, `shifts` a map. -/
def isFullRecord (r : WeeklyRecord) : Prop :=
  (∃ v, r.name = some v) ∧ (∃ v, r.unit = some v) ∧ (∃ v, r.group = some v)
  ∧ (∃ v, r.jobTitle = some v) ∧ (∃ m, r.shifts = some m)

/-- C9, confirmed: every record written through `saveWeeklySchedule` (also
when called from `updateStaffInWeeklySchedule`) carries all of name, unit,
group and jobTitle as strings and shifts as a map, each missing or falsy
field replaced by the empty value; consequently a saved record can no longer
distinguish "no override for this field" from "override set to the empty
string". -/
theorem c9_record_normalization (sched : WeeklySchedule) (d r0 : WeeklyRecord) :
    (∀ r ∈ (saveWeeklySchedule sched).staff, isFullRecord r)
    ∧ (∀ r ∈ (saveWeeklySchedule (updateStaffInWeeklySchedule sched d)).staff, isFullRecord r)
    ∧ cleanRecord d ∈ (updateStaffInWeeklySchedule sched d).staff
    ∧ cleanRecord { r0 with unit := none } = cleanRecord { r0 with unit := some "" }
    ∧ cleanRecord { r0 with group := none } = cleanRecord { r0 with group := some "" }
    ∧ cleanRecord { r0 with jobTitle := none } = cleanRecord { r0 with jobTitle := some "" }
    ∧ cleanRecord { r0 with name := none } = cleanRecord { r0 with name := some "" }
    ∧ cleanRecord { r0 with shifts := none } = cleanRecord { r0 with shifts := some [] } := by
  have hfull : ∀ r : WeeklyRecord, isFullRecord (cleanRecord r) := by
    intro r
    exact ⟨⟨strOrEmpty r.name, rfl⟩, ⟨strOrEmpty r.unit, rfl⟩, ⟨strOrEmpty r.group, rfl⟩,
      ⟨strOrEmpty r.jobTitle, rfl⟩, ⟨r.shifts.getD [], rfl⟩⟩
  refine ⟨?_, ?_, ?_, rfl, rfl, rfl, rfl, rfl⟩
  · intro r hr
    rcases List.mem_map.mp hr with ⟨r1, _, hr1⟩
    rw [← hr1]
    exact hfull r1
  · intro r hr
    rcases List.mem_map.mp hr with ⟨r1, _, hr1⟩
    rw [← hr1]
    exact hfull r1
  · unfold updateStaffInWeeklySchedule
    by_cases hany : (sched.staff.any (fun s => s.staffId = d.staffId)) = true
    · rw [if_pos hany]
      exact mem_replaceFirst hany
    · rw [if_neg hany]
      simp

/-!  C10: `deleteStaffFromList` also removes the member's record from the
currently loaded week.  The persisted weekly documents are modelled as an
association list keyed by week start date (`storeSet` is the document
write); the hook only ever writes the current week's document. -/

def storeSet (store : List (String × WeeklySchedule)) (k : String) (v : WeeklySchedule) :
    List (String × WeeklySchedule) :=
  match store with
  | [] => [(k, v)]
  | (k1, v1) :: rest => if k1 = k then (k, v) :: rest else (k1, v1) :: storeSet rest k v

/-- `removeStaffFromWeeklySchedule`: a no-op when no schedule is loaded or
the member has no record this week; otherwise filter the record out, update
the in-memory state and save the week. -/
def removeStaffFromWeeklySchedule (cur : Option WeeklySchedule)
    (store : List (String × WeeklySchedule)) (curDate staffId : String) :
    Option WeeklySchedule × List (String × WeeklySchedule) :=
  match cur with
  | none => (none, store)
  | some sched =>
    if sched.staff.any (fun s => s.staffId = staffId) then
      (some { sched with staff := sched.staff.filter (fun s => s.staffId ≠ staffId) },
       storeSet store curDate
         (saveWeeklySchedule { sched with staff := sched.staff.filter (fun s => s.staffId ≠ staffId) }))
    else (some sched, store)

/-- `deleteStaffFromList` together with its weekly follow-up: on a
successful global save, a member present in the loaded week is also removed
from that week and the week re-saved. -/
def deleteStaffFromListFull (gs : GlobalSettings) (cur : Option WeeklySchedule)
    (store : List (String × WeeklySchedule)) (curDate staffId : String) :
    Option (GlobalSettings × Option WeeklySchedule × List (String × WeeklySchedule)) :=
  if staffId = "" then none
  else
    match saveGlobalSettings (some gs) { gs with staffList := deleteStaffList gs.staffList staffId } false with
    | none => none
    | some saved =>
      if (cur.map (fun sched => sched.staff.any (fun s => s.staffId = staffId))).getD false then
        ((fun q => some (saved, q.1, q.2)) (removeStaffFromWeeklySchedule cur store curDate staffId))
      else
        some (saved, cur, store)

theorem storeSet_lookup_self :
    ∀ (store : List (String × WeeklySchedule)) (k : String) (v : WeeklySchedule),
      (storeSet store k v).lookup k = some v := by
  intro store
  induction store with
  | nil => intro k v; simp [storeSet, List.lookup]
  | cons hd rest ih =>
    intro k v
    obtain ⟨k1, v1⟩ := hd
    unfold storeSet
    by_cases hk : k1 = k
    · rw [if_pos hk]
      simp [List.lookup]
    · rw [if_neg hk]
      have : (k == k1) = false := by
        simp [Ne.symm hk]
      simp [List.lookup, this, ih]

theorem storeSet_lookup_other :
    ∀ (store : List (String × WeeklySchedule)) (k w : String) (v : WeeklySchedule),
      w ≠ k → (storeSet store k v).lookup w = store.lookup w := by
  intro store
  induction store with
  | nil =>
    intro k w v hw
    have h1 : (w == k) = false := by simp [hw]
    simp [storeSet, List.lookup, h1]
  | cons hd rest ih =>
    intro k w v hw
    obtain ⟨k1, v1⟩ := hd
    unfold storeSet
    by_cases hk : k1 = k
    · rw [if_pos hk]
      have h1 : (w == k) = false := by simp [hw]
      have h2 : (w == k1) = false := by
        rw [hk]
        exact h1
      simp [List.lookup, h1, h2]
    · rw [if_neg hk]
      by_cases hwk1 : w = k1
      · simp [List.lookup, hwk1]
      · have h1 : (w == k1) = false := by simp [hwk1]
        simp [List.lookup, h1, ih k w v hw]

/-- C10, confirmed: when `deleteStaffFromList` succeeds for a member whose
record is in the currently loaded week, that record is filtered out of the
in-memory week, the current week's document is re-saved without it, and the
documents of all other weeks are untouched. -/
theorem c10_delete_cleans_current_week (gs : GlobalSettings) (sched : WeeklySchedule)
    (store : List (String × WeeklySchedule)) (curDate staffId : String)
    (gsOut : GlobalSettings) (curOut : Option WeeklySchedule)
    (storeOut : List (String × WeeklySchedule))
    (hin : (sched.staff.any (fun s => s.staffId = staffId)) = true)
    (hop : deleteStaffFromListFull gs (some sched) store curDate staffId
      = some (gsOut, curOut, storeOut)) :
    curOut = some { sched with staff := sched.staff.filter (fun s => s.staffId ≠ staffId) }
    ∧ (∀ r ∈ sched.staff.filter (fun s => s.staffId ≠ staffId), r.staffId ≠ staffId)
    ∧ storeOut.lookup curDate = some (saveWeeklySchedule
        { sched with staff := sched.staff.filter (fun s => s.staffId ≠ staffId) })
    ∧ (∀ r ∈ (saveWeeklySchedule
        { sched with staff := sched.staff.filter (fun s => s.staffId ≠ staffId) }).staff,
        r.staffId ≠ staffId)
    ∧ (∀ w, w ≠ curDate → storeOut.lookup w = store.lookup w) := by
  unfold deleteStaffFromListFull at hop
  by_cases hsid : staffId = ""
  · rw [if_pos hsid] at hop
    exact Option.noConfusion hop
  · rw [if_neg hsid] at hop
    cases hsv : saveGlobalSettings (some gs)
        { gs with staffList := deleteStaffList gs.staffList staffId } false with
    | none =>
      rw [hsv] at hop
      exact Option.noConfusion hop
    | some saved =>
      rw [hsv] at hop
      simp only at hop
      rw [if_pos (show (((some sched).map
          (fun sched => sched.staff.any (fun s => s.staffId = staffId))).getD false) = true
        from hin)] at hop
      unfold removeStaffFromWeeklySchedule at hop
      simp only at hop
      rw [if_pos hin] at hop
      have htriple := Option.some.inj hop
      have hcur : curOut = some { sched with staff := sched.staff.filter (fun s => s.staffId ≠ staffId) } := by
        have := congrArg (fun t => t.2.1) htriple
        simpa using this.symm
      have hstore : storeOut = storeSet store curDate (saveWeeklySchedule
          { sched with staff := sched.staff.filter (fun s => s.staffId ≠ staffId) }) := by
        have := congrArg (fun t => t.2.2) htriple
        simpa using this.symm
      refine ⟨hcur, ?_, ?_, ?_, ?_⟩
      · intro r hr
        have := List.of_mem_filter hr
        simpa using this
      · rw [hstore]
        exact storeSet_lookup_self store curDate _
      · intro r hr
        unfold saveWeeklySchedule at hr
        simp only at hr
        rcases List.mem_map.mp hr with ⟨r1, hr1, hr1e⟩
        have hne : r1.staffId ≠ staffId := by
          have := List.of_mem_filter hr1
          simpa using this
        rw [← hr1e]
        exact hne
      · intro w hwne
        rw [hstore]
        exact storeSet_lookup_other store curDate w _ hwne

def schedC10 : WeeklySchedule :=
  { weekStartDate := "2024-06-10",
    staff := [{ staffId := "s1", unit := some "I" }, { staffId := "s2" }] }

def gsC10 : GlobalSettings :=
  { units := ["I"],
    staffList := [mAlice, { id := "s2", name := "Bob", sortOrder := some 1 }] }

def storeC10 : List (String × WeeklySchedule) :=
  [("2024-06-03", { weekStartDate := "2024-06-03", staff := [{ staffId := "s2" }] })]

/-- Closed instance of `c10_delete_cleans_current_week` at a concrete input. -/
theorem c10_delete_cleans_current_week_witness :
    (deleteStaffFromListFull gsC10 (some schedC10) storeC10 "2024-06-10" "s2").elim True
      (fun q => q.2.1 = some { schedC10 with
        staff := schedC10.staff.filter (fun s => s.staffId ≠ "s2") }) := by
  have h := c10_delete_cleans_current_week gsC10 schedC10 storeC10 "2024-06-10" "s2"
  cases hop : deleteStaffFromListFull gsC10 (some schedC10) storeC10 "2024-06-10" "s2" with
  | none => exact trivial
  | some q =>
    obtain ⟨gsOut, curOut, storeOut⟩ := q
    exact (h gsOut curOut storeOut (by decide) hop).1

/-!  C5: the schedule copy engine (`copyScheduleFromWeek`).  A week's Monday
to Saturday is abstracted as its list of six date strings; the source does
the same through `getWeekDates` plus day-offset arithmetic on the source
Monday. -/

/-- `sourceStaff.shifts?.[d] || ""`: the shift code for a source day, with a
missing map, missing day, or empty code all collapsing to `""`. -/
def lookupShiftSrc (r : WeeklyRecord) (d : String) : String :=
  ((r.shifts.getD []).lookup d).getD ""

/-- JS object keyed assignment `m[k] = v` on a string-keyed map. -/
def objSetStr (m : List (String × String)) (k v : String) : List (String × String) :=
  match m with
  | [] => [(k, v)]
  | (k1, v1) :: rest => if k1 = k then (k, v) :: rest else (k1, v1) :: objSetStr rest k v

/-- The new shifts map for the target week: for each day index, the target
date gets the source date's shift code (or `""`). -/
def copyShifts (r : WeeklyRecord) (sourceDates targetDates : List String) :
    List (String × String) :=
  (targetDates.zip sourceDates).foldl (fun m p => objSetStr m p.1 (lookupShiftSrc r p.2)) []

/-- Map one source record to the target week, or drop it when its staff is
missing from the roster or inactive. -/
def copyStaffEntry (gs : GlobalSettings) (sourceDates targetDates : List String)
    (r : WeeklyRecord) : Option WeeklyRecord :=
  match gs.staffList.find? (fun s => s.id = r.staffId) with
  | none => none
  | some m =>
    if m.isActive then
      some { staffId := r.staffId,
             name := r.name <|> some m.name,
             unit := r.unit <|> m.defaultUnit,
             group := r.group <|> m.defaultGroup,
             jobTitle := r.jobTitle <|> m.defaultJobTitle,
             shifts := some (copyShifts r sourceDates targetDates) }
    else none

/-- The complete document written for the target week (it replaces any
existing target document wholesale). -/
def copyScheduleFromWeek (gs : GlobalSettings) (src : List WeeklyRecord)
    (sourceDates targetDates : List String) (targetWeekStr : String) : WeeklySchedule :=
  { weekStartDate := targetWeekStr,
    staff := src.filterMap (copyStaffEntry gs sourceDates targetDates) }

theorem objSetStr_fresh {k v : String} :
    ∀ {m : List (String × String)}, k ∉ m.map Prod.fst → objSetStr m k v = m ++ [(k, v)] := by
  intro m
  induction m with
  | nil => intro _; rfl
  | cons p rest ih =>
    intro hk
    obtain ⟨k1, v1⟩ := p
    have hne : k1 ≠ k := by
      intro h
      exact hk (by simp [h])
    unfold objSetStr
    rw [if_neg hne, ih (fun h => hk (by simp [h]))]
    simp

theorem foldl_objSetStr (g : String × String → String) :
    ∀ (ps : List (String × String)) (acc : List (String × String)),
      (acc.map Prod.fst ++ ps.map Prod.fst).Nodup →
      ps.foldl (fun m p => objSetStr m p.1 (g p)) acc
        = acc ++ ps.map (fun p => (p.1, g p)) := by
  intro ps
  induction ps with
  | nil => intro acc _; simp
  | cons p rest ih =>
    intro acc hnd
    have hfresh : p.1 ∉ acc.map Prod.fst := by
      intro hmem
      have hdisj := (List.nodup_append.mp hnd).2.2
      exact hdisj hmem (by simp)
    have hstep : objSetStr acc p.1 (g p) = acc ++ [(p.1, g p)] := objSetStr_fresh hfresh
    have hnd2 : ((acc ++ [(p.1, g p)]).map Prod.fst ++ rest.map Prod.fst).Nodup := by
      rw [List.map_append, List.append_assoc]
      simpa using hnd
    calc (p :: rest).foldl (fun m q => objSetStr m q.1 (g q)) acc
        = rest.foldl (fun m q => objSetStr m q.1 (g q)) (acc ++ [(p.1, g p)]) := by
          simp [List.foldl_cons, hstep]
      _ = (acc ++ [(p.1, g p)]) ++ rest.map (fun q => (q.1, g q)) := ih _ hnd2
      _ = acc ++ ((p :: rest).map (fun q => (q.1, g q))) := by simp

theorem copyShifts_eq {r : WeeklyRecord} {sd td : List String}
    (hlen : td.length ≤ sd.length) (hnd : td.Nodup) :
    copyShifts r sd td = (td.zip sd).map (fun p => (p.1, lookupShiftSrc r p.2)) := by
  unfold copyShifts
  have hkeys : ((([] : List (String × String)).map Prod.fst)
      ++ (td.zip sd).map Prod.fst).Nodup := by
    rw [List.map_fst_zip td sd hlen]
    simpa using hnd
  have h := foldl_objSetStr (fun p => lookupShiftSrc r p.2) (td.zip sd) [] hkeys
  simpa using h

theorem copyShifts_keys {r : WeeklyRecord} {sd td : List String}
    (hlen : td.length ≤ sd.length) (hnd : td.Nodup) :
    (copyShifts r sd td).map Prod.fst = td := by
  rw [copyShifts_eq hlen hnd, List.map_map]
  have h1 : (Prod.fst ∘ fun p : String × String => (p.1, lookupShiftSrc r p.2)) = Prod.fst :=
    rfl
  rw [h1, List.map_fst_zip td sd hlen]

theorem lookup_get_of_nodup_keys :
    ∀ (l : List (String × String)), (l.map Prod.fst).Nodup →
      ∀ (i : Nat) (h : i < l.length),
        l.lookup ((l.get ⟨i, h⟩).1) = some ((l.get ⟨i, h⟩).2) := by
  intro l
  induction l with
  | nil => intro _ i h; simp at h
  | cons p rest ih =>
    intro hnd i h
    obtain ⟨k, v⟩ := p
    cases i with
    | zero => simp [List.lookup]
    | succ n =>
      have hn : n < rest.length := by simpa using h
      have hsplit : (∀ x : String, (k, x) ∉ rest) ∧ (List.map Prod.fst rest).Nodup := by
        simpa using hnd
      have hget : (((k, v) :: rest).get ⟨n + 1, h⟩) = rest.get ⟨n, hn⟩ := rfl
      rw [hget]
      have hkey : (rest.get ⟨n, hn⟩).1 ≠ k := by
        intro heq
        refine hsplit.1 (rest.get ⟨n, hn⟩).2 ?_
        have hqeta : ((rest.get ⟨n, hn⟩).1, (rest.get ⟨n, hn⟩).2) = rest.get ⟨n, hn⟩ := rfl
        rw [← heq, hqeta]
        exact rest.get_mem n hn
      have hbeq : ((rest.get ⟨n, hn⟩).1 == k) = false := by simpa using hkey
      have hrec := ih hsplit.2 n hn
      show List.lookup (rest.get ⟨n, hn⟩).1 ((k, v) :: rest) = some ((rest.get ⟨n, hn⟩).2)
      rw [List.lookup, hbeq]
      exact hrec

theorem copyShifts_lookup {r : WeeklyRecord} {sd td : List String}
    (hlen : td.length ≤ sd.length) (hnd : td.Nodup)
    (i : Nat) (hi : i < td.length) :
    (copyShifts r sd td).lookup (td.getD i "")
      = some (lookupShiftSrc r (sd.getD i "")) := by
  have hisd : i < sd.length := lt_of_lt_of_le hi hlen
  have hkeys : ((copyShifts r sd td).map Prod.fst).Nodup := by
    rw [copyShifts_keys hlen hnd]; exact hnd
  have hil : i < (copyShifts r sd td).length := by
    have := congrArg List.length (copyShifts_keys hlen hnd (r := r))
    simp only [List.length_map] at this
    omega
  have h := lookup_get_of_nodup_keys (copyShifts r sd td) hkeys i hil
  have hzl : i < (td.zip sd).length := by
    rw [List.length_zip]; omega
  have hget : (copyShifts r sd td).get ⟨i, hil⟩
      = (td.getD i "", lookupShiftSrc r (sd.getD i "")) := by
    rw [List.get_of_eq (copyShifts_eq hlen hnd) ⟨i, hil⟩]
    have h1 : td.getD i "" = td[i] := by rw [List.getD_eq_getElem td "" hi]
    have h2 : sd.getD i "" = sd[i] := by rw [List.getD_eq_getElem sd "" hisd]
    rw [h1, h2]
    simp [List.getElem_zip]
  rw [hget] at h
  exact h

/-- **C5**: the schedule copy drops exactly the source records whose staffId
has no active roster member, and for every retained record builds a shifts
map keyed by the six target dates where the shift for target day `i` is the
source record's shift for source day `i` when assigned, and the explicit
empty string otherwise (`sourceStaff.shifts?.[sourceDay] || ""`).  The six
source and target dates are assumed pairwise distinct and the roster ids
unique, as the data model guarantees. -/
theorem c5_copy_schedule (gs : GlobalSettings) (src : List WeeklyRecord)
    (sd td : List String) (tw : String)
    (hsd : sd.length = 6) (htd : td.length = 6) (hndtd : td.Nodup)
    (hgid : (gs.staffList.map (fun s => s.id)).Nodup) :
    (copyScheduleFromWeek gs src sd td tw).weekStartDate = tw ∧
    (copyScheduleFromWeek gs src sd td tw).staff
        = src.filterMap (copyStaffEntry gs sd td) ∧
    ∀ r ∈ src,
      ((¬ ∃ m ∈ gs.staffList, m.id = r.staffId ∧ m.isActive = true) →
        copyStaffEntry gs sd td r = none) ∧
      ((∃ m ∈ gs.staffList, m.id = r.staffId ∧ m.isActive = true) →
        ∃ q ∈ (copyScheduleFromWeek gs src sd td tw).staff,
          copyStaffEntry gs sd td r = some q ∧
          q.staffId = r.staffId ∧
          (q.shifts.getD []).map Prod.fst = td ∧
          ∀ i : Nat, i < 6 →
            (q.shifts.getD []).lookup (td.getD i "")
              = some (((r.shifts.getD []).lookup (sd.getD i "")).getD "")) := by
  have hlen : td.length ≤ sd.length := by omega
  refine ⟨rfl, rfl, ?_⟩
  intro r hr
  constructor
  · intro hno
    unfold copyStaffEntry
    cases hfind : gs.staffList.find? (fun s => s.id = r.staffId) with
    | none => rfl
    | some m =>
      have hmem := List.mem_of_find?_eq_some hfind
      have hid : m.id = r.staffId := by
        have := List.find?_some hfind
        simpa using this
      have hact : m.isActive = false := by
        cases hA : m.isActive with
        | false => rfl
        | true => exact absurd ⟨m, hmem, hid, hA⟩ hno
      simp [hact]
  · rintro ⟨m, hmem, hid, hact⟩
    have hsome : (gs.staffList.find? (fun s => s.id = r.staffId)).isSome := by
      rw [List.find?_isSome]
      exact ⟨m, hmem, by simp [hid]⟩
    obtain ⟨m0, hfind⟩ := Option.isSome_iff_exists.mp hsome
    have hm0mem := List.mem_of_find?_eq_some hfind
    have hm0id : m0.id = r.staffId := by
      have := List.find?_some hfind
      simpa using this
    have hm0m : m0 = m :=
      List.inj_on_of_nodup_map hgid hm0mem hmem (by rw [hm0id, hid])
    have hm0act : m0.isActive = true := by rw [hm0m]; exact hact
    have hentry : copyStaffEntry gs sd td r
        = some { staffId := r.staffId,
                 name := r.name <|> some m0.name,
                 unit := r.unit <|> m0.defaultUnit,
                 group := r.group <|> m0.defaultGroup,
                 jobTitle := r.jobTitle <|> m0.defaultJobTitle,
                 shifts := some (copyShifts r sd td) } := by
      unfold copyStaffEntry
      rw [hfind]
      simp [hm0act]
    refine ⟨_, List.mem_filterMap.mpr ⟨r, hr, hentry⟩, hentry, rfl, ?_, ?_⟩
    · exact copyShifts_keys hlen hndtd
    · intro i hi
      have hitd : i < td.length := by omega
      exact copyShifts_lookup hlen hndtd i hitd

def rC5 : WeeklyRecord := { staffId := "s1", shifts := some [("2024-06-10", "DE")] }

def srcC5 : List WeeklyRecord := [rC5]

def sdC5 : List String :=
  ["2024-06-10", "2024-06-11", "2024-06-12", "2024-06-13", "2024-06-14", "2024-06-15"]

def tdC5 : List String :=
  ["2024-06-17", "2024-06-18", "2024-06-19", "2024-06-20", "2024-06-21", "2024-06-22"]

theorem c5_copy_schedule_witness :
    ∃ q ∈ (copyScheduleFromWeek gsBase srcC5 sdC5 tdC5 "2024-06-17").staff,
      copyStaffEntry gsBase sdC5 tdC5 rC5 = some q ∧
      q.staffId = rC5.staffId ∧
      (q.shifts.getD []).map Prod.fst = tdC5 ∧
      ∀ i : Nat, i < 6 →
        (q.shifts.getD []).lookup (tdC5.getD i "")
          = some (((rC5.shifts.getD []).lookup (sdC5.getD i "")).getD "") :=
  ((c5_copy_schedule gsBase srcC5 sdC5 tdC5 "2024-06-17" (by decide) (by decide) (by decide)
      (by decide)).2.2 rC5 (by decide)).2 (by decide)
